import Mathlib

/-!
# Ledger: permission-state merge, message application and block synchronisation

A shallow embedding of `src/server/server.cpp` (the `branch_context` merge
constructor, `min_primacy`, `has_feature`, `create_member`,
`load_branch_forward`), of
`src/server/claf_misc.cpp` (`encode_features`, `decode_features`,
`Server::apply_data`) and of `src/node/logic.cpp` (`update_chain`,
`send_blocks`, `begin_sending_blocks`, `evaluate_blocks` and the table `next`),
followed by theorems about them.

Conventions of the embedding:

* a `std::map<std::string, V>` is an association list `List (String × V)`;
  a well-formed map has pairwise distinct keys (`amap_wf`);
* `m[k]` (`operator[]`) inserts a value-initialised entry when `k` is absent:
  `amap_index` is the map after the access, `amap_at` the value read;
* `int` ranks and version counters are `Int`, `unsigned int` primacies are
  `Nat`, reduced modulo `2^32` where the source converts to `unsigned int`;
  `std::abs` on a rank is computed in 32 bits (`std_abs`), so that the rank
  `INT_MIN` is its own `std::abs`;
* a call that throws an exception no handler catches, or reads a vector out of
  its bounds, has no result: `none`;
* `nlohmann::json` documents are the inductive type `Json`.
-/

namespace Ledger

/-! ## Association maps -/

/-- Lookup `m.find(k)`: the value stored under the first entry with key `k`. -/
def amap_find {V : Type} : List (String × V) → String → Option V
  | [], _ => none
  | (k', v) :: rest, k => if k' = k then some v else amap_find rest k

/-- Assignment `m[k] = v`: replaces the entry under `k`, or adds one. -/
def amap_set {V : Type} : List (String × V) → String → V → List (String × V)
  | [], k, v => [(k, v)]
  | (k', v') :: rest, k, v =>
    if k' = k then (k, v) :: rest else (k', v') :: amap_set rest k v

/-- Removal `m.erase(k)`. -/
def amap_erase {V : Type} : List (String × V) → String → List (String × V)
  | [], _ => []
  | (k', v') :: rest, k =>
    if k' = k then rest else (k', v') :: amap_erase rest k

/-- The value read by `m[k]`: the stored one, or the value-initialised `d`. -/
def amap_at {V : Type} (d : V) (m : List (String × V)) (k : String) : V :=
  (amap_find m k).getD d

/-- The map after evaluating `m[k]`: an absent key is inserted with `d`. -/
def amap_index {V : Type} (d : V) (m : List (String × V)) (k : String) :
    List (String × V) :=
  match amap_find m k with
  | some _ => m
  | none => amap_set m k d

/-- The keys of a map, in storage order. -/
def amap_keys {V : Type} (m : List (String × V)) : List String :=
  m.map Prod.fst

/-- A map is well formed when no key occurs twice. -/
def amap_wf {V : Type} (m : List (String × V)) : Prop :=
  (amap_keys m).Nodup

/-! ## JSON documents and `merge_patch` -/

/-- A `nlohmann::json` value. -/
inductive Json where
  | null : Json
  | bool (b : Bool) : Json
  | num (n : Int) : Json
  | str (s : String) : Json
  | arr (xs : List Json) : Json
  | obj (kvs : List (String × Json)) : Json

namespace Json

/-- The test `is_null()`. -/
def is_null : Json → Bool
  | null => true
  | _ => false

/-- The members of an object; any other value has none (`*this = object()`). -/
def members : Json → List (String × Json)
  | obj kvs => kvs
  | _ => []

mutual
/-- The library call `target.merge_patch(apply_patch)` (RFC 7386): an object
patch is applied member by member to the target (first replaced by an empty
object when it is not one), a null member erasing the key and any other member
being merged into `target[key]`; a patch that is not an object replaces the
target. -/
def merge_patch (target : Json) : Json → Json
  | obj kvs => obj (merge_patch_items target.members kvs)
  | p => p
/-- The loop of `merge_patch` over the members of an object patch. -/
def merge_patch_items (t : List (String × Json)) :
    List (String × Json) → List (String × Json)
  | [] => t
  | (k, v) :: rest =>
    if v.is_null then merge_patch_items (amap_erase t k) rest
    else merge_patch_items (amap_set t k (merge_patch (amap_at null t k) v)) rest
end

mutual
/-- A document is normal when every object in it, reached through object
members, has pairwise distinct keys and no null member. -/
def normal : Json → Bool
  | obj kvs => normal_items kvs
  | _ => true
/-- The member-wise part of `normal`. -/
def normal_items : List (String × Json) → Bool
  | [] => true
  | (k, v) :: rest =>
    !v.is_null && normal v && (amap_find rest k).isNone && normal_items rest
end

end Json

/-! ## The data model of `server.h` as used by the two source files -/

/-- A role: six capability bits and a primacy (lower is stronger). -/
structure role where
  features : Fin 6 → Bool
  primacy : Nat

/-- A value-initialised `role`: no capability, primacy 0. -/
def role.zero : role :=
  { features := fun _ => false, primacy := 0 }

/-- A value-initialised `std::pair<role, int>`, as inserted by `roles[name]`. -/
def role_pair_zero : role × Int :=
  (role.zero, 0)

/-- A channel member: the user fingerprint and the signed rank per role. -/
structure member where
  user_trip : String
  roles_ranks : List (String × Int)

/-- A value-initialised `member`, as inserted by `members[hash]`. -/
def member.zero : member :=
  { user_trip := "", roles_ranks := [] }

/-- The permission state of a branch. -/
structure branch_context where
  members : List (String × member)
  roles : List (String × (role × Int))
  settings : Json

/-- The object under construction before the body of a constructor runs. -/
def branch_context.blank : branch_context :=
  { members := [], roles := [], settings := Json.null }

/-- The method `branch_context::initialize_roles` (lines 21-28): the creator
role, without capabilities and of primacy 0, is stored with version 1. -/
def branch_context.initialize_roles (c : branch_context) : branch_context :=
  { c with roles := amap_set c.roles "creator" ({ features := fun _ => false, primacy := 0 }, 1) }

/-- The default constructor `branch_context::branch_context()` (lines 30-32). -/
def branch_context.initial : branch_context :=
  branch_context.blank.initialize_roles

/-! ## The merge constructor (server.cpp, lines 34-66) -/

/-- The value an arithmetic result has once stored in an `int`: reduced to 32
bits, two's complement. -/
def int_wrap (x : Int) : Int :=
  (x + 2 ^ 31) % 2 ^ 32 - 2 ^ 31

/-- The function `std::abs` on `int`: a negative argument is negated, in 32
bits. The negation of `INT_MIN = -2^31` does not fit, and the value that comes
back is `INT_MIN` itself. -/
def std_abs (r : Int) : Int :=
  int_wrap (if r < 0 then -r else r)

/-- Lines 44-48: the ranks of one input member folded into the ranks held so
far; per role name the input rank replaces the held one (read with
`roles_ranks[name]`, which inserts 0 for an absent name) when its `std::abs`
is greater. -/
def merge_roles_ranks (held : List (String × Int)) (input : List (String × Int)) :
    List (String × Int) :=
  input.foldl
    (fun rr entry =>
      if std_abs entry.2 > std_abs (amap_at 0 rr entry.1) then
        amap_set (amap_index 0 rr entry.1) entry.1 entry.2
      else amap_index 0 rr entry.1)
    held

/-- Lines 42-53: the members of one input context folded into the members
collected so far. -/
def merge_members (acc : List (String × member)) (input : List (String × member)) :
    List (String × member) :=
  input.foldl
    (fun ms entry =>
      match amap_find ms entry.1 with
      | some cur =>
        amap_set ms entry.1
          { cur with roles_ranks := merge_roles_ranks cur.roles_ranks entry.2.roles_ranks }
      | none => amap_set ms entry.1 entry.2)
    acc

/-- Lines 56-60: the roles of one input context folded into the roles
collected so far, a candidate replacing the stored pair only when its version
is strictly greater. -/
def merge_roles (acc : List (String × (role × Int)))
    (input : List (String × (role × Int))) : List (String × (role × Int)) :=
  input.foldl
    (fun rs entry =>
      if entry.2.2 > (amap_at role_pair_zero rs entry.1).2 then
        amap_set (amap_index role_pair_zero rs entry.1) entry.1 entry.2
      else amap_index role_pair_zero rs entry.1)
    acc

/-- One iteration of the loop over `input_contexts`. -/
def branch_context.absorb (acc input_context : branch_context) : branch_context :=
  { members := merge_members acc.members input_context.members
    roles := merge_roles acc.roles input_context.roles
    settings := Json.merge_patch acc.settings input_context.settings }

/-- The constructor `branch_context::branch_context(std::vector<branch_context>)`. -/
def branch_context.merge (input_contexts : List branch_context) : branch_context :=
  input_contexts.foldl branch_context.absorb branch_context.blank

/-- A permission state whose three kinds of map are well formed. -/
def branch_context.wf (c : branch_context) : Prop :=
  amap_wf c.members ∧ amap_wf c.roles ∧
    ∀ e ∈ c.members, amap_wf e.2.roles_ranks

/-! ## Capability codes (claf_misc.cpp, lines 12-29) -/

/-- The function `encode_features`: the loop adds the index `i`, not the
capability bit, before each shift. -/
def encode_features (_features : Fin 6 → Bool) : Int :=
  (List.range 6).foldl (fun output i => (output + (i : Int)) * 2) 0

/-- The function `decode_features`: `moving_filter` starts at 0 and is only
shifted, so every bit is tested against the mask 0. -/
def decode_features (encoded_features : Int) : Fin 6 → Bool :=
  fun i =>
    let moving_filter : Int := (List.range (i.val + 1)).foldl (fun f _ => f * 2) 0
    decide (Int.land encoded_features moving_filter ≠ 0)

/-! ## Users, keys and the primitives the source calls but does not define -/

/-- A pair of public (or private) keys. -/
structure keypair where
  DSA_key : String
  RSA_key : String

/-- A global identity: fingerprint and key material. -/
structure user where
  u_trip : String
  pub_keys : keypair
  pri_keys : keypair

/-- A value-initialised `user`, as inserted by `known_users[trip]`. -/
def user.zero : user :=
  { u_trip := "", pub_keys := ⟨"", ""⟩, pri_keys := ⟨"", ""⟩ }

/-- The functions and types that `apply_data` uses and whose definitions are
outside the embedded files: the cryptographic primitives, the base-64 codec,
the constructor `user(keypair)` that fingerprints a key pair, the member
function `orient_dir` of a signed rank, and the effect of the store through
the pointer `moving_ref`, which the settings branch never sets. -/
structure Externals where
  DSA_verify : String → String → String → Bool
  RSA_encrypt : String → String → String
  RSA_decrypt : String → String → String
  calc_hash : String → String
  b64_encode : String → String
  b64_decode : String → String
  user_of_keys : keypair → user
  orient_dir : Int → Bool → Int
  store_setting : branch_context → List String → Json → branch_context

/-- The part of a `Server` that `apply_data` reads and writes. -/
structure Server where
  known_users : List (String × user)
  luser : user

/-! ## Messages -/

/-- A key set `{sig_pubk, enc_pubk}` of a message payload. -/
structure claf_keyset where
  sig_pubk : String
  enc_pubk : String

/-- The payload `claf_data["d"]`, each field with the type the source converts
it to. -/
structure claf_payload where
  cms : claf_keyset
  nms : List claf_keyset
  nsk : List (String × String)
  rms : List String
  nst : String
  rn : String
  rp : Nat
  pc : Int
  tu : String
  tr : String
  sn : List String
  sv : Json

/-- A decoded message `claf_data`: declared hash `h`, author `a`, supertype
`st`, type `t` and payload `d`. A missing `st` or `t` compares unequal to every
literal, as any other string does. -/
structure claf where
  h : String
  a : String
  st : String
  t : String
  d : claf_payload

/-! ## Queries on a permission state (server.cpp, lines 68-88) -/

/-- The body of the loop of `min_primacy`: an entry of negative rank is
skipped; otherwise `roles[name]` is read (and inserted when absent) and the
minimum updated. -/
def min_primacy_step (acc : Nat × branch_context) (name_pair : String × Int) :
    Nat × branch_context :=
  if name_pair.2 < 0 then acc
  else
    let role_primacy := (amap_at role_pair_zero acc.2.roles name_pair.1).1.primacy % 2 ^ 32
    (if role_primacy < acc.1 then role_primacy else acc.1,
      { acc.2 with roles := amap_index role_pair_zero acc.2.roles name_pair.1 })

/-- The method `branch_context::min_primacy`: the least primacy among the
roles whose rank is not negative, starting from `INT_MAX`; `roles[name]`
inserts a value-initialised role for a name that has none, so the state after
the call is returned with the result. -/
def branch_context.min_primacy (ctx : branch_context) (target : member) :
    Nat × branch_context :=
  target.roles_ranks.foldl min_primacy_step (2 ^ 31 - 1, ctx)

/-- The body of the loop of `has_feature`. -/
def has_feature_step (index : Fin 6) (acc : Bool × branch_context)
    (name_pair : String × Int) : Bool × branch_context :=
  if name_pair.2 < 0 then acc
  else
    let role_feature := (amap_at role_pair_zero acc.2.roles name_pair.1).1.features index
    (acc.1 || role_feature,
      { acc.2 with roles := amap_index role_pair_zero acc.2.roles name_pair.1 })

/-- The method `branch_context::has_feature`: whether some role whose rank is
not negative has the capability bit `index`; the state after the call is
returned with the result, as for `min_primacy`. -/
def branch_context.has_feature (ctx : branch_context) (target : member) (index : Fin 6) :
    Bool × branch_context :=
  target.roles_ranks.foldl (has_feature_step index) (false, ctx)

/-! ## Member creation (server.cpp, lines 123-132) -/

/-- The method `Server::create_member`: registers the user of the key pair and
returns a member holding each initial role with rank 1. -/
def Server.create_member (env : Externals) (srv : Server) (pub_keys : keypair)
    (initial_roles : List String) : member × Server :=
  let temp_user := env.user_of_keys pub_keys
  ({ user_trip := temp_user.u_trip
     roles_ranks := initial_roles.foldl (fun rr init_role => amap_set rr init_role 1) [] },
   { srv with known_users := amap_set srv.known_users temp_user.u_trip temp_user })

/-! ## Message application (claf_misc.cpp, lines 37-146) -/

/-- What a call of `apply_data` leaves behind: the returned flag, the
permission state `ctx`, the members of the side-channel document `extra`, and
the server with its table of known users. -/
structure apply_result where
  accepted : Bool
  ctx : branch_context
  extra : List (String × Json)
  srv : Server

/-- Lines 63-68: one member is created per supplied key set and stored under
its fingerprint. -/
def apply_invite (env : Externals) (srv : Server) (ctx : branch_context) :
    List claf_keyset → branch_context × Server
  | [] => (ctx, srv)
  | keyset :: rest =>
    let created := srv.create_member env ⟨keyset.sig_pubk, keyset.enc_pubk⟩ []
    apply_invite env created.2
      { ctx with members := amap_set ctx.members created.1.user_trip created.1 } rest

/-- Lines 79-84: the members outside the removed set, or `none` as soon as one
of them has no entry in the table of new keys. -/
def rem_relevant_members (d : claf_payload) :
    List (String × member) → Option (List String)
  | [] => some []
  | (user_trip, _) :: rest =>
    if user_trip ∈ d.rms then rem_relevant_members d rest
    else if (amap_find d.nsk user_trip).isNone then none
    else (rem_relevant_members d rest).map (fun r => user_trip :: r)

/-- Lines 90-94: every member's entry of the table must be the re-encryption
of the new key under that member's public key; `known_users[user_trip]`
inserts a value-initialised user for an unknown fingerprint. -/
def rem_check_ciphertexts (env : Externals) (d : claf_payload) (decrypted_key : String) :
    Server → List (String × member) → Bool × Server
  | srv, [] => (true, srv)
  | srv, (user_trip, _) :: rest =>
    let user_rsa_pubk := (amap_at user.zero srv.known_users user_trip).pub_keys.RSA_key
    let srv' := { srv with known_users := amap_index user.zero srv.known_users user_trip }
    if some (env.b64_encode
        (env.RSA_encrypt (env.b64_decode user_rsa_pubk) (env.b64_decode decrypted_key)))
        ≠ amap_find d.nsk user_trip then (false, srv')
    else rem_check_ciphertexts env d decrypted_key srv' rest

/-- Lines 70-97: the branch `admin/rem`. -/
def apply_rem (env : Externals) (srv : Server) (ctx : branch_context)
    (extra : List (String × Json)) (author_member : member) (d : claf_payload) :
    apply_result :=
  let can_rem := ctx.has_feature author_member 2
  if !can_rem.1 then ⟨false, can_rem.2, extra, srv⟩
  else
    match rem_relevant_members d can_rem.2.members with
    | none => ⟨false, can_rem.2, extra, srv⟩
    | some relevant_members =>
      if srv.luser.u_trip ∉ relevant_members then ⟨false, can_rem.2, extra, srv⟩
      else
        let encrypted_key := env.b64_decode ((amap_find d.nsk srv.luser.u_trip).getD "")
        let decrypted_key :=
          env.RSA_decrypt (env.b64_decode srv.luser.pri_keys.RSA_key) encrypted_key
        let nserver_trip := env.calc_hash decrypted_key
        if nserver_trip ≠ d.nst then ⟨false, can_rem.2, extra, srv⟩
        else
          let checked := rem_check_ciphertexts env d decrypted_key srv can_rem.2.members
          if !checked.1 then ⟨false, can_rem.2, extra, checked.2⟩
          else ⟨true, can_rem.2, amap_set extra "s_key" (Json.str decrypted_key), checked.2⟩

/-- Modelled from the spec: the member function `orient_dir` of a capability
bit, declared in `server.h`, which is not among the sources ("Each of the 6
capability bits is independently set/cleared to the declared value"). -/
def feature_orient_dir (_current dir : Bool) : Bool :=
  dir

/-- Lines 100-116: the branch `role/crole`. The access `ctx.roles[target_role]`
precedes the primacy test. -/
def apply_crole (srv : Server) (ctx : branch_context) (extra : List (String × Json))
    (author_member : member) (d : claf_payload) : apply_result :=
  let can_create := ctx.has_feature author_member 4
  if !can_create.1 then ⟨false, can_create.2, extra, srv⟩
  else
    let target_role := d.rn
    let target_primacy := d.rp % 2 ^ 32
    let target_features := decode_features d.pc
    let create_role := (amap_find can_create.2.roles target_role).isNone
    let ctx1 : branch_context :=
      { can_create.2 with roles := amap_index role_pair_zero can_create.2.roles target_role }
    let present_role := amap_at role_pair_zero ctx1.roles target_role
    let author_primacy := ctx1.min_primacy author_member
    if author_primacy.1 ≥ target_primacy then ⟨false, author_primacy.2, extra, srv⟩
    else
      let primacy_rank : Nat × Int :=
        if create_role then (target_primacy, 0)
        else if present_role.1.primacy ≠ target_primacy then (target_primacy, present_role.2 + 1)
        else (present_role.1.primacy, present_role.2)
      ⟨true,
        { author_primacy.2 with
          roles := amap_set author_primacy.2.roles target_role
            ({ features := fun i => feature_orient_dir (present_role.1.features i) (target_features i)
               primacy := primacy_rank.1 }, primacy_rank.2) },
        extra, srv⟩

/-- Lines 117-132: the branch of every other `role` message. The accesses
`ctx.members[tu]` and `ctx.roles[tr]` precede the tests that reject. The two
operands of the comparison of line 121 are evaluated left to right here; the
other order reads the same values and leaves the same state. -/
def apply_grant (env : Externals) (srv : Server) (ctx : branch_context)
    (extra : List (String × Json)) (author_member : member) (t : String) (d : claf_payload) :
    apply_result :=
  let can_grant := ctx.has_feature author_member 3
  if !can_grant.1 then ⟨false, can_grant.2, extra, srv⟩
  else
    let ctx1 : branch_context :=
      { can_grant.2 with members := amap_index member.zero can_grant.2.members d.tu }
    let target_role := d.tr
    let author_primacy := ctx1.min_primacy author_member
    let ctx2 : branch_context :=
      { author_primacy.2 with
        roles := amap_index role_pair_zero author_primacy.2.roles target_role }
    if author_primacy.1 ≥ (amap_at role_pair_zero author_primacy.2.roles target_role).1.primacy
    then ⟨false, ctx2, extra, srv⟩
    else if t ≠ "grole" ∧ t ≠ "rrole" then ⟨false, ctx2, extra, srv⟩
    else
      let direction := decide (t = "grole")
      let altered_member := amap_at member.zero ctx2.members d.tu
      let ranks := amap_index 0 altered_member.roles_ranks target_role
      ⟨true,
        { ctx2 with
          members := amap_set ctx2.members d.tu
            { altered_member with
              roles_ranks := amap_set ranks target_role
                (env.orient_dir (amap_at 0 altered_member.roles_ranks target_role) direction) } },
        extra, srv⟩

/-- The method `Server::apply_data`. A `keypair` is built from the signing key
and the encryption key, in the order the source passes them. -/
def Server.apply_data (env : Externals) (srv : Server) (ctx : branch_context)
    (extra : List (String × Json)) (claf_data : claf) (content signature content_hash : String) :
    apply_result :=
  if content_hash ≠ claf_data.h then ⟨false, ctx, extra, srv⟩
  else if ctx.members.isEmpty ∧ claf_data.st = "a" ∧ claf_data.t = "nserv" then
    let created :=
      srv.create_member env ⟨claf_data.d.cms.sig_pubk, claf_data.d.cms.enc_pubk⟩ ["creator"]
    ⟨true, { ctx with members := amap_set ctx.members created.1.user_trip created.1 },
      extra, created.2⟩
  else
    let author_member := amap_at member.zero ctx.members claf_data.a
    let ctx1 : branch_context :=
      { ctx with members := amap_index member.zero ctx.members claf_data.a }
    let author := amap_at user.zero srv.known_users author_member.user_trip
    let srv1 : Server :=
      { srv with known_users := amap_index user.zero srv.known_users author_member.user_trip }
    let author_raw_sigkey := author.pub_keys.DSA_key
    let author_primacy := ctx1.min_primacy author_member
    let ctx2 := author_primacy.2
    if !env.DSA_verify author_raw_sigkey signature content then ⟨false, ctx2, extra, srv1⟩
    else if claf_data.st = "c" then
      let muted := ctx2.has_feature author_member 0
      if muted.1 then ⟨false, muted.2, extra, srv1⟩ else ⟨true, muted.2, extra, srv1⟩
    else if claf_data.st = "a" then
      if claf_data.t = "invite" then
        let can_invite := ctx2.has_feature author_member 1
        if !can_invite.1 then ⟨false, can_invite.2, extra, srv1⟩
        else
          let invited := apply_invite env srv1 can_invite.2 claf_data.d.nms
          ⟨true, invited.1, extra, invited.2⟩
      else if claf_data.t = "rem" then apply_rem env srv1 ctx2 extra author_member claf_data.d
      else ⟨true, ctx2, extra, srv1⟩
    else if claf_data.st = "r" then
      if claf_data.t = "crole" then apply_crole srv1 ctx2 extra author_member claf_data.d
      else apply_grant env srv1 ctx2 extra author_member claf_data.t claf_data.d
    else if claf_data.st = "s" then
      let can_edit := ctx2.has_feature author_member 5
      if !can_edit.1 then ⟨false, can_edit.2, extra, srv1⟩
      else ⟨true, env.store_setting can_edit.2 claf_data.d.sn claf_data.d.sv, extra, srv1⟩
    else ⟨false, ctx2, extra, srv1⟩

/-! ## Observations on a permission state, used to state the theorems -/

/-- The fingerprint recorded for the member stored under `hash`, if any. -/
def member_trip (ms : List (String × member)) (hash : String) : Option String :=
  (amap_find ms hash).map member.user_trip

/-- The rank the member stored under `hash` has for the role `name`, if any. -/
def member_rank (ms : List (String × member)) (hash name : String) : Option Int :=
  (amap_find ms hash).bind (fun m => amap_find m.roles_ranks name)

/-- Two permission states have the same members and the same roles: the same
member ids with the same fingerprint and the same rank per role name, and the
same role names with the same role and version. -/
def branch_context.same_members_roles (a b : branch_context) : Prop :=
  (∀ hash, member_trip a.members hash = member_trip b.members hash) ∧
  (∀ hash name, member_rank a.members hash name = member_rank b.members hash name) ∧
  (∀ name, amap_find a.roles name = amap_find b.roles name)

/-- The value `has_feature` computes, read off the roles without the
insertions: some entry of non-negative rank names a role with the bit set. -/
def feature_held (roles : List (String × (role × Int))) (ranks : List (String × Int))
    (index : Fin 6) : Bool :=
  ranks.any (fun np =>
    decide (0 ≤ np.2) && (amap_at role_pair_zero roles np.1).1.features index)

/-- The value `min_primacy` computes from a starting minimum, read off the
roles without the insertions. -/
def least_primacy (roles : List (String × (role × Int))) (ranks : List (String × Int))
    (start : Nat) : Nat :=
  ranks.foldl
    (fun least np =>
      if np.2 < 0 then least
      else if (amap_at role_pair_zero roles np.1).1.primacy % 2 ^ 32 < least then
        (amap_at role_pair_zero roles np.1).1.primacy % 2 ^ 32
      else least)
    start

/-- The rank stored under a role name after line 45 has met the input rank `y`
with the rank `x` held so far; an absent `x` reads as 0. -/
def rank_pick : Option Int → Option Int → Option Int
  | x, none => x
  | x, some b => some (if std_abs b > std_abs (x.getD 0) then b else x.getD 0)

/-- The rank of greater absolute value among the rank `x` held so far and the
rank `y` of an input, the held one on a tie. -/
def rank_greater : Option Int → Option Int → Option Int
  | x, none => x
  | none, some b => some b
  | some a, some b => some (if b.natAbs > a.natAbs then b else a)

/-- A rank, if present, is an `int` other than `INT_MIN`: it lies strictly
between `-2^31` and `2^31`. -/
def rank_in_range (x : Option Int) : Prop :=
  ∀ r, x = some r → -(2 ^ 31) < r ∧ r < 2 ^ 31

/-- Every rank stored in the state is an `int` other than `INT_MIN`. -/
def branch_context.ranks_in_range (c : branch_context) : Prop :=
  ∀ e ∈ c.members, ∀ p ∈ e.2.roles_ranks, -(2 ^ 31) < p.2 ∧ p.2 < 2 ^ 31

/-- The member kept when an input member `y` meets the member `x` stored so
far under the same id. -/
def member_pick : Option member → Option member → Option member
  | x, none => x
  | none, some b => some b
  | some a, some b =>
    some { a with roles_ranks := merge_roles_ranks a.roles_ranks b.roles_ranks }

/-- The role pair kept when an input candidate `y` meets the pair `x` stored
so far under the same name; an absent `x` reads as the value-initialised pair. -/
def role_pick : Option (role × Int) → Option (role × Int) → Option (role × Int)
  | x, none => x
  | x, some c =>
    some (if c.2 > (x.getD role_pair_zero).2 then c else x.getD role_pair_zero)

/-- A stored role pair as the merge loop leaves it: of positive version, or
the value-initialised pair. -/
def role_settled (x : Option (role × Int)) : Prop :=
  ∀ c, x = some c → 0 < c.2 ∨ c = role_pair_zero

/-! ## Concrete inputs -/

/-- A state with one member holding the role `mod`, which can create roles
and has primacy 5; its settings hold one number. -/
def sample_ctx : branch_context :=
  { members := [("u1", { user_trip := "u1", roles_ranks := [("mod", 1)] })]
    roles := [("mod", ({ features := fun i => decide (i = 4), primacy := 5 }, 1))]
    settings := Json.obj [("topic", Json.num 1)] }

/-- A state without members or roles whose settings give the key `a` the
value null. -/
def null_setting_ctx : branch_context :=
  { members := [], roles := [], settings := Json.obj [("a", Json.null)] }

/-- Three states without members or roles whose settings disagree on the
key `a`: an object, a number, another object. -/
def settings_ctx_a : branch_context :=
  { members := [], roles := [], settings := Json.obj [("a", Json.obj [("b", Json.num 1)])] }

/-- The second of the three states. -/
def settings_ctx_b : branch_context :=
  { members := [], roles := [], settings := Json.obj [("a", Json.num 2)] }

/-- The third of the three states. -/
def settings_ctx_c : branch_context :=
  { members := [], roles := [], settings := Json.obj [("a", Json.obj [("c", Json.num 3)])] }

/-- A state in which `u1` has lost the role `mod` (rank -2) and the role
`mod` has version 2 and primacy 4. -/
def sample_ctx_later : branch_context :=
  { members := [("u1", { user_trip := "u1", roles_ranks := [("mod", -2)] })]
    roles := [("mod", ({ features := fun _ => false, primacy := 4 }, 2))]
    settings := Json.obj [("topic", Json.num 2)] }

/-- No member id and no role name of `a` occurs in `b`. -/
def branch_context.disjoint (a b : branch_context) : Prop :=
  (∀ k ∈ amap_keys a.members, k ∉ amap_keys b.members) ∧
  (∀ k ∈ amap_keys a.roles, k ∉ amap_keys b.roles)

/-- A state with the member `u2` and the role `guest`, sharing no member id
and no role name with `sample_ctx`. -/
def other_ctx : branch_context :=
  { members := [("u2", { user_trip := "u2", roles_ranks := [("guest", 1)] })]
    roles := [("guest", ({ features := fun _ => false, primacy := 9 }, 1))]
    settings := Json.obj [("topic", Json.num 7)] }

/-- A state whose only content is the role `helper` as `crole` creates it:
version 0, primacy 7, capability 1. -/
def fresh_role_ctx : branch_context :=
  { members := []
    roles := [("helper", ({ features := fun i => decide (i = 1), primacy := 7 }, 0))]
    settings := Json.null }

/-- Primitives for concrete runs: every signature verifies, encryption,
hashing and the codec are the identity, a user is fingerprinted by the
concatenation of its keys, a rank is oriented to 1 or -1, and the store of
the settings branch leaves the state alone. -/
def sample_env : Externals :=
  { DSA_verify := fun _ _ _ => true
    RSA_encrypt := fun _ m => m
    RSA_decrypt := fun _ c => c
    calc_hash := fun x => x
    b64_encode := fun x => x
    b64_decode := fun x => x
    user_of_keys := fun keys => { u_trip := keys.DSA_key ++ keys.RSA_key, pub_keys := keys, pri_keys := ⟨"", ""⟩ }
    orient_dir := fun _ dir => if dir then 1 else -1
    store_setting := fun c _ _ => c }

/-- A server that knows the user `u1`, who is also the local user. -/
def sample_srv : Server :=
  { known_users := [("u1", { u_trip := "u1", pub_keys := ⟨"s1", "e1"⟩, pri_keys := ⟨"", ""⟩ })]
    luser := { u_trip := "u1", pub_keys := ⟨"s1", "e1"⟩, pri_keys := ⟨"", ""⟩ } }

/-- A payload with every field empty. -/
def empty_payload : claf_payload :=
  { cms := ⟨"", ""⟩, nms := [], nsk := [], rms := [], nst := "", rn := "", rp := 0, pc := 0,
    tu := "", tr := "", sn := [], sv := Json.null }

/-- A message of `u1` that creates the role `new` with primacy 3, stronger
than the primacy 5 that `u1` holds in `sample_ctx`. -/
def crole_too_strong : claf :=
  { h := "h0", a := "u1", st := "r", t := "crole",
    d := { empty_payload with rn := "new", rp := 3 } }

/-- A message of `u1` with supertype `a` and a type that is none of `nserv`,
`invite`, `rem`. -/
def admin_unknown_type : claf :=
  { h := "h0", a := "u1", st := "a", t := "bogus", d := empty_payload }

/-- A state whose only member `u1` holds, with rank 1, the role `quiet`
that carries capability 0 (mute) and every other capability too. -/
def muted_ctx : branch_context :=
  { members := [("u1", { user_trip := "u1", roles_ranks := [("quiet", 1)] })]
    roles := [("quiet", ({ features := fun _ => true, primacy := 2 }, 1))]
    settings := Json.null }

/-- A chat message of `u1`. -/
def chat_message : claf :=
  { h := "h0", a := "u1", st := "c", t := "", d := empty_payload }

/-- A channel-creation message declaring the keys `s9` and `e9`. -/
def nserv_message : claf :=
  { h := "h0", a := "", st := "a", t := "nserv",
    d := { empty_payload with cms := ⟨"s9", "e9"⟩ } }

/-- A state whose member `u1` has rank 0 for the role `quiet` (every
capability, primacy 1) and rank 1 for the role `mod` (no capability,
primacy 5). -/
def zero_rank_ctx : branch_context :=
  { members := [("u1", { user_trip := "u1", roles_ranks := [("quiet", 0), ("mod", 1)] })]
    roles := [("quiet", ({ features := fun _ => true, primacy := 1 }, 1)),
              ("mod", ({ features := fun _ => false, primacy := 5 }, 1))]
    settings := Json.null }

/-- The member `u1` of `zero_rank_ctx`. -/
def zero_rank_member : member :=
  { user_trip := "u1", roles_ranks := [("quiet", 0), ("mod", 1)] }

/-! ## The conditions of a key rotation, used to state the theorem on `admin/rem` -/

/-- The remaining members of a removal: the member ids of the state that are
not in the removed set `rms`. -/
def rem_remaining (ctx : branch_context) (d : claf_payload) : List String :=
  (amap_keys ctx.members).filter (fun user_trip => decide (user_trip ∉ d.rms))

/-- The key the local user decrypts from its own entry of the table `nsk`
(lines 86-87). -/
def rem_decrypted_key (env : Externals) (srv : Server) (d : claf_payload) : String :=
  env.RSA_decrypt (env.b64_decode srv.luser.pri_keys.RSA_key)
    (env.b64_decode ((amap_find d.nsk srv.luser.u_trip).getD ""))

/-- The re-encryption of a key under the public encryption key registered for
a member, as line 93 computes it. -/
def rem_reencrypted (env : Externals) (srv : Server) (key user_trip : String) : String :=
  env.b64_encode
    (env.RSA_encrypt
      (env.b64_decode (amap_at user.zero srv.known_users user_trip).pub_keys.RSA_key)
      (env.b64_decode key))

/-- The four conditions of a valid key rotation: the local user remains; every
remaining member has an entry; the fingerprint of the decrypted key is the
declared one; every remaining member's entry is the re-encryption of that key
under the member's public key. -/
def rem_key_rotation_valid (env : Externals) (srv : Server) (ctx : branch_context)
    (d : claf_payload) : Prop :=
  srv.luser.u_trip ∈ rem_remaining ctx d ∧
  (∀ u ∈ rem_remaining ctx d, (amap_find d.nsk u).isSome = true) ∧
  env.calc_hash (rem_decrypted_key env srv d) = d.nst ∧
  (∀ u ∈ rem_remaining ctx d,
    amap_find d.nsk u = some (rem_reencrypted env srv (rem_decrypted_key env srv d) u))

/-- A removal message of `u1` that removes nobody and supplies no new key. -/
def rem_without_keys : claf :=
  { h := "h0", a := "u1", st := "a", t := "rem", d := empty_payload }

/-! ## The synchronisation protocol (node/logic.cpp)

The handlers read the connection through the macros `CTX`
(`conn->message_context`) and `TREES` (`*conn->parent_chains`). A chain is a
vector of blocks, a block a vector of six strings. `TREES[trip]` for a channel
without a tree reads as the empty chain; that the access inserts such a tree
is not recorded. A read past the end of a vector has no defined result and is
`none`. -/

/-- A block: the six fields `block["b"][0..5]`. -/
abbrev block := List String

/-- The field read `b[i]`. -/
def block_field (b : block) (i : Nat) : String :=
  b.getD i ""

/-- The subtraction of two `size_t` values, modulo `2^64`. -/
def size_t_sub (a b : Nat) : Nat :=
  (a % 2 ^ 64 + 2 ^ 64 - b % 2 ^ 64) % 2 ^ 64

/-- The members of a tree that the handlers call and whose definitions are
outside the embedded file: `verify_block` of the tree of a channel (given here
the chain of that tree, the entry `{"#", "b"}` and the threshold), and the
conversion of a json value to the type of `CTX.pow_min`. -/
structure NodeExternals where
  verify_block : List block → Nat × block → Nat → Bool
  pow_of : Json → Nat

/-- The access `j[key]` of `nlohmann::json` with a string key on a value that
is not const: a null value becomes an object whose new member, null, is
returned; an object returns the member under the key, inserted as null when
absent; on every other kind of value the library throws `type_error.305`,
here `none`. -/
def Json.at_key : Json → String → Option Json
  | Json.null, _ => some Json.null
  | Json.obj kvs, key => some (amap_at Json.null kvs key)
  | _, _ => none

/-- The context `conn->message_context` of a session. -/
structure sync_context where
  chain_trip : String
  lastbi : Nat
  k : Nat
  pow_min : Nat
  wchain : List block

/-- A connection: its session context and the chains `*conn->parent_chains`,
one per channel. -/
structure Conn where
  message_context : sync_context
  parent_chains : List (String × List block)

/-- Modelled from the spec: the accessor `get_chain()` of the tree type of
`node.h`, which is not among the sources, applied to `TREES[CTX.chain_trip]`;
it returns the channel's recorded chain `target_tree.local_chain`, the one
`update_chain` appends to ("append it to the channel's recorded/local chain"). -/
def Conn.get_chain (conn : Conn) : List block :=
  amap_at [] conn.parent_chains conn.message_context.chain_trip

/-- The function `update_chain` (lines 17-24): the buffer `wchain`, reversed, is
appended to the local chain of the channel. -/
def update_chain (conn : Conn) : Conn :=
  { conn with
    parent_chains := amap_set conn.parent_chains conn.message_context.chain_trip
      (conn.get_chain ++ conn.message_context.wchain.reverse) }

/-- A message `{"FLAG": flag, "CONTENT": {"blocks": [{"#": index, "b": block}]}}`. -/
structure wire_blocks where
  flag : String
  blocks : List (Nat × block)

/-- A reply `{"FLAG": flag, "CONTENT": {"i": index}}`; `i` is absent when no
block was looked at. -/
structure wire_reply where
  flag : String
  i : Option Nat

/-- The loop of `send_blocks` (lines 46-55) with `remaining` iterations left
before `backi` reaches `CTX.k`. -/
def send_blocks_loop (chain : List block) (lastbi : Nat) :
    Nat → Nat → Option (List (Nat × block))
  | 0, _ => some []
  | remaining + 1, backi =>
    let workingi := size_t_sub (size_t_sub lastbi 1) backi
    match chain[workingi]? with
    | none => none
    | some b =>
      if workingi = 0 then some [(workingi, b)]
      else (send_blocks_loop chain lastbi remaining (backi + 1)).map
        (fun blocks => (workingi, b) :: blocks)

/-- The handler `send_blocks` (lines 37-63). -/
def send_blocks (conn : Conn) : Option (wire_blocks × Conn) :=
  match send_blocks_loop conn.get_chain conn.message_context.lastbi conn.message_context.k 0 with
  | none => none
  | some blocks =>
    some ({ flag := "BLOCKS", blocks := blocks },
      { conn with
        message_context :=
          { conn.message_context with
            lastbi :=
              if conn.message_context.lastbi > conn.message_context.k then
                conn.message_context.lastbi - conn.message_context.k
              else 0 } })

/-- Lines 71-73 of `begin_sending_blocks`: the context is set for the channel
`chain` and the batch size `k`, the cursor at the length of the chain. -/
def begin_cursor (conn : Conn) (chain : String) (k : Nat) : Conn :=
  { conn with
    message_context :=
      { conn.message_context with
        chain_trip := chain
        lastbi := (amap_at [] conn.parent_chains chain).length
        k := k } }

/-- Line 74 of `begin_sending_blocks`, on the context that lines 71-73 have
set: `json(get_chain()[0][5])` builds a json value from the sixth field of the
first block, a `std::string`, so the value is a json string, and `["p"]` is
read from it. The handler catches `int` only, so an exception of the library
leaves it without a return value: `none`, like the read of the first block of
an empty chain. -/
def begin_threshold (env : NodeExternals) (conn : Conn) : Option Conn :=
  match conn.get_chain[0]? with
  | none => none
  | some first =>
    match (Json.str (block_field first 5)).at_key "p" with
    | none => none
    | some p =>
      some { conn with message_context := { conn.message_context with pow_min := env.pow_of p } }

/-- The handler `begin_sending_blocks` (lines 65-79): lines 71-73, line 74,
then `send_blocks`. -/
def begin_sending_blocks (env : NodeExternals) (conn : Conn) (chain : String) (k : Nat) :
    Option (wire_blocks × Conn) :=
  (begin_threshold env (begin_cursor conn chain k)).bind send_blocks

/-- Line 102: the six fields of the stored and of the received block agree. -/
def all_equal (stored received : block) : Bool :=
  (List.range 6).all (fun i => block_field stored i == block_field received i)

/-- The variables of the loop of `evaluate_blocks`: the flag and the index of
the reply, and the buffer `CTX.wchain`. -/
structure eval_state where
  flag : String
  i : Option Nat
  wchain : List block

/-- The loop of `evaluate_blocks` (lines 89-110). Lines 97 and 105 compare the
flag with `==` and assign nothing, so on these two exits the flag keeps its
value. -/
def evaluate_blocks_loop (env : NodeExternals) (pow_min : Nat) (chain : List block) :
    eval_state → List (Nat × block) → eval_state
  | s, [] => s
  | s, entry :: rest =>
    if s.wchain ≠ [] ∧
        ¬ (env.verify_block chain entry pow_min = true ∧
            block_field entry.2 2 = block_field (s.wchain.getLastD []) 1) then
      { s with i := some entry.1 }
    else if entry.1 < chain.length ∧ all_equal (chain.getD entry.1 []) entry.2 = true then
      if entry.1 = chain.length - 1 then
        { flag := "PRESENT/T", i := some entry.1, wchain := s.wchain }
      else { s with i := some entry.1 }
    else
      evaluate_blocks_loop env pow_min chain
        { s with i := some entry.1, wchain := s.wchain ++ [entry.2] } rest

/-- The handler `evaluate_blocks` (lines 81-116). -/
def evaluate_blocks (env : NodeExternals) (conn : Conn) (blocks : List (Nat × block)) :
    wire_reply × Conn :=
  let s := evaluate_blocks_loop env conn.message_context.pow_min conn.get_chain
    { flag := "ABSENT/V", i := none, wchain := conn.message_context.wchain } blocks
  let conn1 : Conn :=
    { conn with message_context := { conn.message_context with wchain := s.wchain } }
  if s.flag = "PRESENT/T" ∨ (s.flag = "ABSENT/V" ∧ s.i = some 0) then
    ({ flag := s.flag, i := s.i }, update_chain conn1)
  else ({ flag := s.flag, i := s.i }, conn1)

/-- The two peers of a session. -/
structure sync_session where
  responder : Conn
  requester : Conn

/-- One exchange: the responder serves a batch with `send_blocks`, the
requester answers it with `evaluate_blocks` (the entries `BLOCKS` and
`ABSENT/V` of the table `next`). -/
def sync_round (env : NodeExternals) (s : sync_session) :
    Option (wire_reply × sync_session) :=
  match send_blocks s.responder with
  | none => none
  | some served =>
    some ((evaluate_blocks env s.requester served.1.blocks).1,
      { responder := served.2
        requester := (evaluate_blocks env s.requester served.1.blocks).2 })

/-- Exchanges repeated as the table `next` (lines 141-145) dictates: a reply
`ABSENT/V` makes the responder send the next batch, any other reply has no
handler and ends the session. The result is the list of reply flags and the
final state; `none` when a read has no defined result or the fuel runs out. -/
def sync_run (env : NodeExternals) : Nat → sync_session → Option (List String × sync_session)
  | 0, _ => none
  | fuel + 1, s =>
    match sync_round env s with
    | none => none
    | some r =>
      if r.1.flag = "ABSENT/V" then
        (sync_run env fuel r.2).map (fun t => (r.1.flag :: t.1, t.2))
      else some ([r.1.flag], r.2)

/-- A whole session: the entry `READY` of the table sets the responder's
context (lines 71-74 of `begin_sending_blocks`, whose call of `send_blocks` is
the first exchange), then the exchanges run. -/
def sync (env : NodeExternals) (fuel : Nat) (responder requester : Conn) (chain : String)
    (k : Nat) : Option (List String × sync_session) :=
  (begin_threshold env (begin_cursor responder chain k)).bind
    (fun started => sync_run env fuel { responder := started, requester := requester })

/-! ## Concrete chains and sessions -/

/-- The genesis block `g`: field 1 is the link to the previous block, field 2
the block's own hash. -/
def blk_g : block := ["g", "", "hg", "", "", "p"]

/-- The block `b1`, linked to `g`. -/
def blk_b1 : block := ["b1", "hg", "h1", "", "", ""]

/-- The block `b2`, linked to `b1`. -/
def blk_b2 : block := ["b2", "h1", "h2", "", "", ""]

/-- The block `b2a`, linked to `b1`. -/
def blk_b2a : block := ["b2a", "h1", "h2a", "", "", ""]

/-- The block `b2b`, also linked to `b1`. -/
def blk_b2b : block := ["b2b", "h1", "h2b", "", "", ""]

/-- The block `b1x`, linked to `g` like `b1`. -/
def blk_b1x : block := ["b1x", "hg", "h1x", "", "", ""]

/-- Tree primitives that accept every block. -/
def accept_env : NodeExternals :=
  { verify_block := fun _ _ _ => true, pow_of := fun _ => 0 }

/-- Tree primitives that accept no block. -/
def reject_env : NodeExternals :=
  { verify_block := fun _ _ _ => false, pow_of := fun _ => 0 }

/-- A connection on the channel `ch` with the given chain and buffer. -/
def conn_with (chain wchain : List block) : Conn :=
  { message_context := { chain_trip := "ch", lastbi := 0, k := 0, pow_min := 0, wchain := wchain }
    parent_chains := [("ch", chain)] }

/-- The first two exchanges of the session in which the holder of
`[g, b1, b2a]` requests, with batch size 2, the chain of the holder of
`[g, b1, b2b]`, whose context is set as lines 71-73 of `begin_sending_blocks`
set it. -/
def fork_two_exchanges : Option (wire_reply × wire_reply × sync_session) :=
  (sync_round accept_env
      { responder := begin_cursor (conn_with [blk_g, blk_b1, blk_b2b] []) "ch" 2
        requester := conn_with [blk_g, blk_b1, blk_b2a] [] }).bind
    (fun first => (sync_round accept_env first.2).map (fun second =>
      (first.1, second.1, second.2)))

/-- The entries of `n` blocks of a chain counted backward from the cursor `c`:
indices `c-1`, `c-2`, ... each with the block stored there. -/
def blocks_down (chain : List block) : Nat → Nat → List (Nat × block)
  | _, 0 => []
  | c, n + 1 => (c - 1, chain.getD (c - 1) []) :: blocks_down chain (c - 1) n

/-- The blocks `added`, appended one after the other to the buffer `w`, were
checked: each block that met a non-empty buffer is the block of an entry of
the batch that passed `verify_block` against the threshold, and its field 2
equals field 1 of the block buffered just before it. -/
def appended_checked (env : NodeExternals) (pow_min : Nat) (chain : List block)
    (batch : List (Nat × block)) : List block → List block → Prop
  | _, [] => True
  | w, b :: rest =>
    (w ≠ [] → ∃ e ∈ batch, e.2 = b ∧ env.verify_block chain e pow_min = true ∧
      block_field b 2 = block_field (w.getLastD []) 1) ∧
    appended_checked env pow_min chain batch (w ++ [b]) rest

/-- The setting of a catch-up: `L` is a non-empty prefix of `R`, every block
of `R` passes `verify_block` at its index on the requester's tree against the
threshold `p`, and field 2 of each block of `R` equals field 1 of the next. -/
def catch_up_setting (env : NodeExternals) (p : Nat) (L R : List block) : Prop :=
  L ≠ [] ∧ L <+: R ∧ R.length < 2 ^ 64 ∧
  (∀ i, i < R.length → env.verify_block L (i, R.getD i []) p = true) ∧
  (∀ i, i + 1 < R.length → block_field (R.getD i []) 2 = block_field (R.getD (i + 1) []) 1)

/-- The state of a catch-up session whose responder, holding `R`, has its
cursor at `c`, and whose requester, holding `L`, has buffered the blocks of
`R` from index `c` on, newest first. -/
def catch_up_state (p k c : Nat) (L R : List block) (s : sync_session) : Prop :=
  s.responder.get_chain = R ∧ s.responder.message_context.lastbi = c ∧
  s.responder.message_context.k = k ∧ s.requester.get_chain = L ∧
  s.requester.message_context.pow_min = p ∧
  s.requester.message_context.wchain = (R.drop c).reverse

/-! ## Concrete role and invitation messages -/

/-- A message of `u1` that creates the role `new` with primacy 7, weaker than
the primacy 5 that `u1` holds in `sample_ctx`, and with the capability code
127. -/
def crole_weaker : claf :=
  { h := "h0", a := "u1", st := "r", t := "crole",
    d := { empty_payload with rn := "new", rp := 7, pc := 127 } }

/-- A state with the role `creator` of primacy 0 and the role `mod`, which can
create roles and has primacy 5; the only member `u1` holds `mod`. -/
def creator_ctx : branch_context :=
  { members := [("u1", { user_trip := "u1", roles_ranks := [("mod", 1)] })]
    roles := [("creator", ({ features := fun _ => false, primacy := 0 }, 1)),
              ("mod", ({ features := fun i => decide (i = 4), primacy := 5 }, 1))]
    settings := Json.null }

/-- A message of `u1` that declares the primacy 6 for the existing role
`creator`. -/
def crole_demote_creator : claf :=
  { h := "h0", a := "u1", st := "r", t := "crole",
    d := { empty_payload with rn := "creator", rp := 6 } }

/-- A state whose only member is stored under the fingerprint `s1e1` of the
keys `s1`, `e1` and holds the role `quiet`, which has every capability. -/
def reinvite_ctx : branch_context :=
  { members := [("s1e1", { user_trip := "s1e1", roles_ranks := [("quiet", 1)] })]
    roles := [("quiet", ({ features := fun _ => true, primacy := 2 }, 1))]
    settings := Json.null }

/-- An invitation, by the member `s1e1`, of the key set `s1`, `e1`. -/
def reinvite_message : claf :=
  { h := "h0", a := "s1e1", st := "a", t := "invite",
    d := { empty_payload with nms := [⟨"s1", "e1"⟩] } }

/-! ## Branch construction (server.cpp, lines 154-246)

An `unordered_set` is a list without repetition, visited in storage order. A
call that throws, an assertion that fails and the `throw;` of line 203, which
has no exception to rethrow, end the program: the result is `none`. -/

/-- A block of the tree, as `load_branch_forward` reads it. -/
structure tree_block where
  hash : String
  p_hashes : List String
  c_hashes : List String
  s_trip : String
  time : Nat
  cont : String

/-- A value-initialised block, read from the chain for an unknown hash. -/
def tree_block.zero : tree_block :=
  { hash := "", p_hashes := [], c_hashes := [], s_trip := "", time := 0, cont := "" }

/-- A message of a branch (lines 195-199). -/
structure message where
  hash : String
  supertype : String
  type : String
  data : claf_payload

/-- A branch record. -/
structure branch where
  first_hash : String
  messages : List message
  ctx : branch_context
  p_branch_fbs : List String
  c_branch_fbs : List String

/-- A value-initialised branch, as inserted by `branches[hash]`: empty first
hash and sets, default-constructed context. -/
def branch.zero : branch :=
  { first_hash := "", messages := [], ctx := branch_context.initial,
    p_branch_fbs := [], c_branch_fbs := [] }

/-- Insertion into a set. -/
def set_insert (s : List String) (x : String) : List String :=
  if x ∈ s then s else s ++ [x]

/-- The functions of the digestion of a block whose definitions are outside
the embedded files: `unlock_msg` (with `none` when it throws), the parse of
the unlocked content into a message (with `none` when it throws), and the
content hash of line 191 as a function of time, channel and parent hashes. -/
structure BranchExternals where
  unlock_msg : String → String → Option (String × String)
  parse : String → Option claf
  content_hash : Nat → String → List String → String

/-- The part of a `Server` that `load_branch_forward` reads and writes: the
part `apply_data` uses, the chain of the tree, the channel and its key, the
branch records and the constraint sets. -/
structure branch_server where
  srv : Server
  chain : List (String × tree_block)
  s_trip : String
  raw_AES_key : String
  branches : List (String × branch)
  constraint_heads : List String
  constraint_path_fbs : List String

/-- Modelled from the spec: the method `intraserver_parent_count` of the tree
type of `tree.h`, which is not among the sources ("counting intra-channel
parents of a block"): the number of parents of the block that belong to the
channel. -/
def intraserver_parent_count (chain : List (String × tree_block)) (b : tree_block)
    (s_trip : String) : Nat :=
  (b.p_hashes.filter (fun p => decide ((amap_at tree_block.zero chain p).s_trip = s_trip))).length

/-- Lines 189-208: the message of a block is unlocked, parsed and applied; an
accepted message is returned with the state it leaves. `apply_data` is called
without the side-channel document, which is taken empty and dropped. -/
def digest_block (env : Externals) (bx : BranchExternals) (raw_AES_key : String)
    (srv : Server) (ctx : branch_context) (active_block : tree_block) :
    Option (branch_context × Server × message) :=
  match bx.unlock_msg (env.b64_decode active_block.cont) raw_AES_key with
  | none => none
  | some raw_unlocked =>
    let content_hash :=
      bx.content_hash active_block.time active_block.s_trip active_block.p_hashes
    match bx.parse raw_unlocked.1 with
    | none => none
    | some claf_data =>
      let applied := srv.apply_data env ctx [] claf_data raw_unlocked.1 raw_unlocked.2 content_hash
      if applied.accepted then
        if claf_data.st = "" ∨ claf_data.t = "" then none
        else
          some (applied.ctx, applied.srv,
            { hash := active_block.hash, supertype := claf_data.st.take 1,
              type := claf_data.t.take 1, data := claf_data.d })
      else none

/-- Lines 186-230: the walk along the only child in the channel. The result is
the state of the context, the server part, the messages and the seed hashes.
The test of line 210 compares the result of `constraint_heads.find` with the
end of another set; it is read as "the hash is a constraint head". -/
def walk_branch (env : Externals) (bx : BranchExternals) (s : branch_server) :
    Nat → branch_context → Server → List message → String →
      Option (branch_context × Server × List message × List String)
  | 0, _, _, _, _ => none
  | fuel + 1, ctx, srv, messages, working_hash =>
    let active_block := amap_at tree_block.zero s.chain working_hash
    match digest_block env bx s.raw_AES_key srv ctx active_block with
    | none => none
    | some digested =>
      if working_hash ∈ s.constraint_heads then
        some (digested.1, digested.2.1, messages ++ [digested.2.2], [])
      else
        let intraserver_c_hashes :=
          (active_block.c_hashes.filter
            (fun c => decide ((amap_at tree_block.zero s.chain c).s_trip = s.s_trip))).foldl
            set_insert []
        match intraserver_c_hashes with
        | [c] => walk_branch env bx s fuel digested.1 digested.2.1 (messages ++ [digested.2.2]) c
        | _ => some (digested.1, digested.2.1, messages ++ [digested.2.2], intraserver_c_hashes)

/-- Lines 159-166: the condition holds when the record exists, and otherwise
`branches[fb_hash]` inserts a record whose first hash is empty, so it holds
too; the children of the record lose their link back to it. The other branch
stores the first hash. -/
def detach_children (branches : List (String × branch)) (fb_hash : String) :
    List (String × branch) :=
  let existed := (amap_find branches fb_hash).isSome
  let branches1 := amap_index branch.zero branches fb_hash
  if existed ∨ (amap_at branch.zero branches1 fb_hash).first_hash = "" then
    (amap_at branch.zero branches1 fb_hash).c_branch_fbs.foldl
      (fun bs c_fb =>
        amap_set bs c_fb
          { amap_at branch.zero bs c_fb with
            p_branch_fbs := (amap_at branch.zero bs c_fb).p_branch_fbs.erase fb_hash })
      branches1
  else
    amap_set branches1 fb_hash
      { amap_at branch.zero branches1 fb_hash with first_hash := fb_hash }

/-- Lines 233-245: one seed. The branch of the seed is built by `load` when the
number of its parent links equals the number of its parents in the channel;
then the first hash of the seed's record is added to the children of the
target and the first hash of the target's record to the parents of the seed. -/
def link_seed (load : branch_server → String → Option branch_server) (fb_hash : String)
    (s : branch_server) (seed_hash : String) : Option branch_server :=
  if s.constraint_heads ≠ [] ∧ seed_hash ∉ s.constraint_path_fbs then some s
  else
    let s1 : branch_server := { s with branches := amap_index branch.zero s.branches seed_hash }
    let loaded :=
      if (amap_at branch.zero s1.branches seed_hash).p_branch_fbs.length
          = intraserver_parent_count s.chain (amap_at tree_block.zero s.chain seed_hash) s.s_trip
      then load s1 seed_hash
      else some s1
    match loaded with
    | none => none
    | some s2 =>
      let branches3 := amap_set s2.branches fb_hash
        { amap_at branch.zero s2.branches fb_hash with
          c_branch_fbs := set_insert (amap_at branch.zero s2.branches fb_hash).c_branch_fbs
            (amap_at branch.zero s2.branches seed_hash).first_hash }
      some { s2 with
        branches := amap_set branches3 seed_hash
          { amap_at branch.zero branches3 seed_hash with
            p_branch_fbs := set_insert (amap_at branch.zero branches3 seed_hash).p_branch_fbs
              (amap_at branch.zero branches3 fb_hash).first_hash } }

/-- The method `Server::load_branch_forward`; the fuel bounds the depth of the
recursion and the length of each walk. -/
def load_branch_forward (env : Externals) (bx : BranchExternals) :
    Nat → branch_server → String → Option branch_server
  | 0, _, _ => none
  | fuel + 1, s, fb_hash =>
    let branches2 := detach_children s.branches fb_hash
    let target_branch := amap_at branch.zero branches2 fb_hash
    let branches3 := amap_set branches2 fb_hash
      { target_branch with c_branch_fbs := [], messages := [] }
    if target_branch.p_branch_fbs.all (fun p => (amap_find branches3 p).isSome) then
      let target_ctxs := target_branch.p_branch_fbs.map (fun p => (amap_at branch.zero branches3 p).ctx)
      match walk_branch env bx s (fuel + 1) (branch_context.merge target_ctxs) s.srv [] fb_hash with
      | none => none
      | some walked =>
        let branches4 := amap_set branches3 fb_hash
          { amap_at branch.zero branches3 fb_hash with
            messages := walked.2.2.1, ctx := walked.1 }
        walked.2.2.2.foldlM (link_seed (load_branch_forward env bx fuel) fb_hash)
          { s with srv := walked.2.1, branches := branches4 }
    else none

/-! ## A fork directly after the first block -/

/-- A tree of the channel `ch`: the block `g` carries the channel-creation
message and has the two children `c1` and `c2`. -/
def fork_chain : List (String × tree_block) :=
  [("g", { hash := "g", p_hashes := [], c_hashes := ["c1", "c2"], s_trip := "ch", time := 0,
           cont := "nserv" }),
   ("c1", { hash := "c1", p_hashes := ["g"], c_hashes := [], s_trip := "ch", time := 1,
            cont := "chat" }),
   ("c2", { hash := "c2", p_hashes := ["g"], c_hashes := [], s_trip := "ch", time := 2,
            cont := "chat" })]

/-- Digestion primitives for the concrete tree: the content is the name of the
message, every content hash is `h0`. -/
def sample_bx : BranchExternals :=
  { unlock_msg := fun cont _ => some (cont, "sig")
    parse := fun content =>
      if content = "nserv" then some nserv_message
      else if content = "chat" then some chat_message
      else none
    content_hash := fun _ _ _ => "h0" }

/-- A server on the tree `fork_chain` without branch records and without
constraint heads. -/
def fork_server : branch_server :=
  { srv := sample_srv, chain := fork_chain, s_trip := "ch", raw_AES_key := "key",
    branches := [], constraint_heads := [], constraint_path_fbs := [] }

/-! ## Concrete states with the rank `INT_MIN` -/

/-- A state whose only member `u` has the rank 1 for the role name `n`. -/
def rank_one_ctx : branch_context :=
  { members := [("u", { user_trip := "u", roles_ranks := [("n", 1)] })]
    roles := []
    settings := Json.null }

/-- A state whose only member `u` has the rank `INT_MIN` for the role name
`n`. -/
def int_min_ctx : branch_context :=
  { members := [("u", { user_trip := "u", roles_ranks := [("n", -2147483648)] })]
    roles := []
    settings := Json.null }

/-- A state whose only member `u` has no rank. -/
def no_rank_ctx : branch_context :=
  { members := [("u", { user_trip := "u", roles_ranks := [] })]
    roles := []
    settings := Json.null }

/-! ## Lemmas on association maps -/

theorem amap_find_set {V : Type} (m : List (String × V)) (k : String) (v : V) (n : String) :
    amap_find (amap_set m k v) n = if k = n then some v else amap_find m n := by
  induction m with
  | nil => simp [amap_set, amap_find]
  | cons e rest ih =>
    obtain ⟨k', v'⟩ := e
    by_cases h : k' = k
    · subst h
      by_cases h2 : k' = n <;> simp [amap_set, amap_find, h2]
    · by_cases h2 : k' = n
      · subst h2
        have h3 : ¬ k = k' := fun e => h e.symm
        simp [amap_set, amap_find, h, h3]
      · simp [amap_set, amap_find, h, h2, ih]

theorem amap_find_index {V : Type} (d : V) (m : List (String × V)) (k n : String) :
    amap_find (amap_index d m k) n
      = if k = n then some (amap_at d m k) else amap_find m n := by
  unfold amap_index amap_at
  cases h : amap_find m k with
  | some v =>
    by_cases h2 : k = n
    · subst h2; simp [h]
    · simp [h2]
  | none => simp [amap_find_set]

theorem amap_find_eq_none {V : Type} (m : List (String × V)) (k : String) :
    amap_find m k = none ↔ k ∉ amap_keys m := by
  induction m with
  | nil => simp [amap_find, amap_keys]
  | cons e rest ih =>
    obtain ⟨k', v'⟩ := e
    by_cases h : k' = k
    · simp [amap_find, amap_keys, h]
    · have h3 : ¬ k = k' := fun e => h e.symm
      simp only [amap_keys] at ih
      simp [amap_find, amap_keys, h, h3, ih]

theorem amap_find_mem {V : Type} (m : List (String × V)) (k : String) (v : V)
    (h : amap_find m k = some v) : (k, v) ∈ m := by
  induction m with
  | nil => simp [amap_find] at h
  | cons e rest ih =>
    obtain ⟨k', v'⟩ := e
    by_cases h2 : k' = k
    · simp [amap_find, h2] at h
      simp [h2, h]
    · simp [amap_find, h2] at h
      exact List.mem_cons_of_mem _ (ih h)

theorem amap_mem_find {V : Type} (m : List (String × V)) (k : String) (v : V)
    (hwf : amap_wf m) (h : (k, v) ∈ m) : amap_find m k = some v := by
  induction m with
  | nil => simp at h
  | cons e rest ih =>
    obtain ⟨k', v'⟩ := e
    simp only [amap_wf, amap_keys, List.map_cons, List.nodup_cons] at hwf
    rcases List.mem_cons.mp h with h1 | h1
    · injection h1 with h1 h2
      simp [amap_find, h1, h2]
    · have hne : ¬ k' = k := by
        intro e
        apply hwf.1
        rw [e]
        exact List.mem_map_of_mem Prod.fst h1
      simp only [amap_find, hne, if_false]
      exact ih hwf.2 h1

theorem amap_set_absent {V : Type} (m : List (String × V)) (k : String) (v : V)
    (h : amap_find m k = none) : amap_set m k v = m ++ [(k, v)] := by
  induction m with
  | nil => simp [amap_set]
  | cons e rest ih =>
    obtain ⟨k', v'⟩ := e
    by_cases h2 : k' = k
    · simp [amap_find, h2] at h
    · simp only [amap_find, h2, if_false] at h
      simp [amap_set, h2, ih h]

theorem amap_keys_set_present {V : Type} (m : List (String × V)) (k : String) (v w : V)
    (h : amap_find m k = some w) : amap_keys (amap_set m k v) = amap_keys m := by
  induction m with
  | nil => simp [amap_find] at h
  | cons e rest ih =>
    obtain ⟨k', v'⟩ := e
    by_cases h2 : k' = k
    · simp [amap_set, amap_keys, h2]
    · simp only [amap_find, h2, if_false] at h
      have := ih h
      simp only [amap_keys] at this
      simp [amap_set, amap_keys, h2, this]

theorem amap_wf_set {V : Type} (m : List (String × V)) (k : String) (v : V)
    (hwf : amap_wf m) : amap_wf (amap_set m k v) := by
  cases h : amap_find m k with
  | some w =>
    unfold amap_wf
    rw [amap_keys_set_present m k v w h]
    exact hwf
  | none =>
    unfold amap_wf at *
    rw [amap_set_absent m k v h]
    have hk := (amap_find_eq_none m k).mp h
    simp only [amap_keys, List.map_append, List.map_cons, List.map_nil] at *
    exact List.Nodup.append hwf (List.nodup_singleton k) (by simpa using hk)

theorem amap_wf_index {V : Type} (d : V) (m : List (String × V)) (k : String)
    (hwf : amap_wf m) : amap_wf (amap_index d m k) := by
  unfold amap_index
  cases h : amap_find m k with
  | some w => exact hwf
  | none => exact amap_wf_set m k d hwf

theorem amap_mem_set {V : Type} (m : List (String × V)) (k : String) (v : V)
    (e : String × V) (h : e ∈ amap_set m k v) : e ∈ m ∨ e = (k, v) := by
  induction m with
  | nil => simpa [amap_set] using h
  | cons e' rest ih =>
    obtain ⟨k', v'⟩ := e'
    by_cases h2 : k' = k
    · simp only [amap_set, h2, if_true, List.mem_cons] at h
      rcases h with h | h
      · exact Or.inr h
      · exact Or.inl (List.mem_cons_of_mem _ h)
    · simp only [amap_set, h2, if_false, List.mem_cons] at h
      rcases h with h | h
      · exact Or.inl (by simp [h])
      · rcases ih h with h3 | h3
        · exact Or.inl (List.mem_cons_of_mem _ h3)
        · exact Or.inr h3

/-- A loop over the entries of a well-formed map whose body touches only the
entry under the key of the current entry acts key by key. -/
theorem amap_foldl_find {V W : Type} (step : List (String × W) → String × V → List (String × W))
    (P : Option W → Option V → Option W) (hP : ∀ x, P x none = x)
    (hstep : ∀ m e n, amap_find (step m e) n
      = if e.1 = n then P (amap_find m e.1) (some e.2) else amap_find m n)
    (input : List (String × V)) (m : List (String × W)) (n : String) (hwf : amap_wf input) :
    amap_find (input.foldl step m) n = P (amap_find m n) (amap_find input n) := by
  induction input generalizing m with
  | nil => simp [amap_find, hP]
  | cons e rest ih =>
    obtain ⟨k, v⟩ := e
    simp only [amap_wf, amap_keys, List.map_cons, List.nodup_cons] at hwf
    rw [List.foldl_cons, ih (step m (k, v)) hwf.2, hstep]
    by_cases h : k = n
    · subst h
      have hnone : amap_find rest k = none := (amap_find_eq_none rest k).mpr hwf.1
      simp [amap_find, hnone, hP]
    · simp [amap_find, h]

theorem std_abs_in_range (r : Int) (h1 : -(2 ^ 31) < r) (h2 : r < 2 ^ 31) :
    std_abs r = (r.natAbs : Int) := by
  unfold std_abs int_wrap
  split_ifs <;> omega

theorem merge_roles_ranks_find (held input : List (String × Int)) (n : String)
    (hwf : amap_wf input) :
    amap_find (merge_roles_ranks held input) n
      = rank_pick (amap_find held n) (amap_find input n) := by
  unfold merge_roles_ranks
  apply amap_foldl_find _ rank_pick (fun x => by cases x <;> rfl) _ input held n hwf
  intro m e k
  obtain ⟨name, rank⟩ := e
  by_cases hk : name = k
  · subst hk
    by_cases hc : std_abs rank > std_abs (amap_at 0 m name)
    · have hc2 : std_abs rank > std_abs ((amap_find m name).getD 0) := hc
      simp [hc, amap_find_set, rank_pick, hc2]
    · have hc2 : ¬ std_abs rank > std_abs ((amap_find m name).getD 0) := hc
      simp [hc, amap_find_index, rank_pick, hc2, amap_at]
  · by_cases hc : std_abs rank > std_abs (amap_at 0 m name)
    · simp [hc, amap_find_set, amap_find_index, hk]
    · simp [hc, amap_find_index, hk]

theorem merge_members_find (acc input : List (String × member)) (h : String)
    (hwf : amap_wf input) :
    amap_find (merge_members acc input) h
      = member_pick (amap_find acc h) (amap_find input h) := by
  unfold merge_members
  apply amap_foldl_find _ member_pick (fun x => by cases x <;> rfl) _ input acc h hwf
  intro m e k
  obtain ⟨hash, in_member⟩ := e
  cases hf : amap_find m hash with
  | none => simp [amap_find_set, member_pick]
  | some cur => simp [amap_find_set, member_pick]

theorem merge_roles_find (acc input : List (String × (role × Int))) (n : String)
    (hwf : amap_wf input) :
    amap_find (merge_roles acc input) n
      = role_pick (amap_find acc n) (amap_find input n) := by
  unfold merge_roles
  apply amap_foldl_find _ role_pick (fun x => by cases x <;> rfl) _ input acc n hwf
  intro m e k
  obtain ⟨name, role_pair⟩ := e
  by_cases hk : name = k
  · subst hk
    by_cases hc : role_pair.2 > (amap_at role_pair_zero m name).2
    · have hc2 : role_pair.2 > ((amap_find m name).getD role_pair_zero).2 := hc
      simp [hc, amap_find_set, role_pick, hc2]
    · have hc2 : ¬ role_pair.2 > ((amap_find m name).getD role_pair_zero).2 := hc
      simp [hc, amap_find_index, role_pick, hc2, amap_at]
  · by_cases hc : role_pair.2 > (amap_at role_pair_zero m name).2
    · simp [hc, amap_find_set, amap_find_index, hk]
    · simp [hc, amap_find_index, hk]

/-! ## One input context absorbed: members, ranks and roles key by key -/

theorem rank_pick_none_right (x : Option Int) : rank_pick x none = x := by
  cases x <;> rfl

theorem rank_greater_none_left (y : Option Int) : rank_greater none y = y := by
  cases y <;> rfl

theorem rank_greater_none_right (x : Option Int) : rank_greater x none = x := by
  cases x <;> rfl

/-- On ranks other than `INT_MIN` line 45 keeps the rank of greater absolute
value. -/
theorem rank_pick_eq_greater (x y : Option Int) (hx : rank_in_range x)
    (hy : rank_in_range y) : rank_pick x y = rank_greater x y := by
  cases y with
  | none => cases x <;> rfl
  | some b =>
    obtain ⟨hb1, hb2⟩ := hy b rfl
    cases x with
    | none =>
      simp only [rank_pick, rank_greater, Option.getD_none]
      rw [std_abs_in_range b hb1 hb2, std_abs_in_range 0 (by norm_num) (by norm_num)]
      congr 1
      split_ifs with h
      · rfl
      · simp only [Int.natAbs_zero, Nat.cast_zero, gt_iff_lt, not_lt] at h
        omega
    | some a =>
      obtain ⟨ha1, ha2⟩ := hx a rfl
      simp only [rank_pick, rank_greater, Option.getD_some]
      rw [std_abs_in_range b hb1 hb2, std_abs_in_range a ha1 ha2]
      congr 1
      split_ifs <;> first | rfl | (exfalso; omega)

theorem rank_greater_in_range (x y : Option Int) (hx : rank_in_range x)
    (hy : rank_in_range y) : rank_in_range (rank_greater x y) := by
  cases y with
  | none =>
    rw [rank_greater_none_right]
    exact hx
  | some b =>
    cases x with
    | none => exact hy
    | some a =>
      intro r hr
      simp only [rank_greater, Option.some.injEq] at hr
      split_ifs at hr
      · exact hy r (by rw [hr])
      · exact hx r (by rw [hr])

theorem rank_in_range_none : rank_in_range none := by
  intro r hr
  cases hr

theorem merge_members_trip (acc input : List (String × member)) (h : String)
    (hwf : amap_wf input) :
    member_trip (merge_members acc input) h
      = (member_trip acc h).orElse (fun _ => member_trip input h) := by
  unfold member_trip
  rw [merge_members_find acc input h hwf]
  cases amap_find acc h <;> cases amap_find input h <;> simp [member_pick]

theorem merge_members_rank (acc input : List (String × member)) (h n : String)
    (hwf : amap_wf input) (hwf2 : ∀ e ∈ input, amap_wf e.2.roles_ranks)
    (hacc : rank_in_range (member_rank acc h n))
    (hin : rank_in_range (member_rank input h n)) :
    member_rank (merge_members acc input) h n
      = rank_greater (member_rank acc h n) (member_rank input h n) := by
  unfold member_rank at hacc hin ⊢
  rw [merge_members_find acc input h hwf]
  cases ha : amap_find acc h with
  | none =>
    cases hb : amap_find input h with
    | none => simp [member_pick, rank_greater]
    | some b =>
      simp only [member_pick, Option.bind_some, Option.bind_none]
      exact (rank_greater_none_left _).symm
  | some a =>
    cases hb : amap_find input h with
    | none => simp [member_pick, rank_greater]
    | some b =>
      have hb2 := hwf2 (h, b) (amap_find_mem input h b hb)
      rw [ha] at hacc
      rw [hb] at hin
      simp only [member_pick, Option.bind_some] at hacc hin ⊢
      exact (merge_roles_ranks_find a.roles_ranks b.roles_ranks n hb2).trans
        (rank_pick_eq_greater _ _ hacc hin)

theorem merge_roles_ranks_wf (held input : List (String × Int)) (hwf : amap_wf held) :
    amap_wf (merge_roles_ranks held input) := by
  unfold merge_roles_ranks
  induction input generalizing held with
  | nil => exact hwf
  | cons e rest ih =>
    rw [List.foldl_cons]
    apply ih
    split
    · exact amap_wf_set _ _ _ (amap_wf_index _ _ _ hwf)
    · exact amap_wf_index _ _ _ hwf

theorem merge_members_wf (acc input : List (String × member)) (hwf : amap_wf acc) :
    amap_wf (merge_members acc input) := by
  unfold merge_members
  induction input generalizing acc with
  | nil => exact hwf
  | cons e rest ih =>
    rw [List.foldl_cons]
    apply ih
    split <;> exact amap_wf_set _ _ _ hwf

theorem merge_members_ranks_wf (acc input : List (String × member))
    (hacc : ∀ e ∈ acc, amap_wf e.2.roles_ranks)
    (hin : ∀ e ∈ input, amap_wf e.2.roles_ranks) :
    ∀ e ∈ merge_members acc input, amap_wf e.2.roles_ranks := by
  unfold merge_members
  induction input generalizing acc with
  | nil => exact hacc
  | cons e rest ih =>
    rw [List.foldl_cons]
    apply ih
    · intro x hx
      split at hx
      · rename_i cur hcur
        rcases amap_mem_set _ _ _ _ hx with h1 | h1
        · exact hacc x h1
        · rw [h1]
          exact merge_roles_ranks_wf _ _ (hacc (e.1, cur) (amap_find_mem acc e.1 cur hcur))
      · rcases amap_mem_set _ _ _ _ hx with h1 | h1
        · exact hacc x h1
        · rw [h1]
          exact hin e (List.mem_cons_self _ _)
    · intro x hx
      exact hin x (List.mem_cons_of_mem _ hx)

theorem merge_roles_wf (acc input : List (String × (role × Int))) (hwf : amap_wf acc) :
    amap_wf (merge_roles acc input) := by
  unfold merge_roles
  induction input generalizing acc with
  | nil => exact hwf
  | cons e rest ih =>
    rw [List.foldl_cons]
    apply ih
    split
    · exact amap_wf_set _ _ _ (amap_wf_index _ _ _ hwf)
    · exact amap_wf_index _ _ _ hwf

theorem absorb_wf (acc c : branch_context) (hacc : acc.wf) (hc : c.wf) :
    (acc.absorb c).wf :=
  ⟨merge_members_wf _ _ hacc.1, merge_roles_wf _ _ hacc.2.1,
    merge_members_ranks_wf _ _ hacc.2.2 hc.2.2⟩

theorem blank_wf : branch_context.blank.wf := by
  simp [branch_context.wf, branch_context.blank, amap_wf, amap_keys]

theorem foldl_absorb_wf (cs : List branch_context) (acc : branch_context)
    (hacc : acc.wf) (hcs : ∀ c ∈ cs, c.wf) :
    (cs.foldl branch_context.absorb acc).wf := by
  induction cs generalizing acc with
  | nil => exact hacc
  | cons c rest ih =>
    rw [List.foldl_cons]
    exact ih _ (absorb_wf acc c hacc (hcs c (List.mem_cons_self _ _)))
      (fun x hx => hcs x (List.mem_cons_of_mem _ hx))

theorem merge_wf (cs : List branch_context) (hcs : ∀ c ∈ cs, c.wf) :
    (branch_context.merge cs).wf :=
  foldl_absorb_wf cs _ blank_wf hcs

/-! ## A list of input contexts absorbed -/

theorem foldl_absorb_trip (cs : List branch_context) (acc : branch_context) (h : String)
    (hcs : ∀ c ∈ cs, c.wf) :
    member_trip (cs.foldl branch_context.absorb acc).members h
      = cs.foldl (fun x c => x.orElse (fun _ => member_trip c.members h))
          (member_trip acc.members h) := by
  induction cs generalizing acc with
  | nil => rfl
  | cons c rest ih =>
    rw [List.foldl_cons, List.foldl_cons,
      ih _ (fun x hx => hcs x (List.mem_cons_of_mem _ hx))]
    have hc := hcs c (List.mem_cons_self _ _)
    simp only [branch_context.absorb]
    rw [merge_members_trip _ _ _ hc.1]

theorem foldl_absorb_rank (cs : List branch_context) (acc : branch_context) (h n : String)
    (hcs : ∀ c ∈ cs, c.wf) (hacc : rank_in_range (member_rank acc.members h n))
    (hr : ∀ c ∈ cs, rank_in_range (member_rank c.members h n)) :
    member_rank (cs.foldl branch_context.absorb acc).members h n
      = cs.foldl (fun x c => rank_greater x (member_rank c.members h n))
          (member_rank acc.members h n) := by
  induction cs generalizing acc with
  | nil => rfl
  | cons c rest ih =>
    have hc := hcs c (List.mem_cons_self _ _)
    have hrc := hr c (List.mem_cons_self _ _)
    have hstep : member_rank (acc.absorb c).members h n
        = rank_greater (member_rank acc.members h n) (member_rank c.members h n) := by
      simp only [branch_context.absorb]
      rw [merge_members_rank _ _ _ _ hc.1 hc.2.2 hacc hrc]
    rw [List.foldl_cons, List.foldl_cons,
      ih _ (fun x hx => hcs x (List.mem_cons_of_mem _ hx))
        (by rw [hstep]; exact rank_greater_in_range _ _ hacc hrc)
        (fun x hx => hr x (List.mem_cons_of_mem _ hx)), hstep]

theorem foldl_absorb_member (cs : List branch_context) (acc : branch_context) (h : String)
    (hcs : ∀ c ∈ cs, c.wf) :
    amap_find (cs.foldl branch_context.absorb acc).members h
      = cs.foldl (fun x c => member_pick x (amap_find c.members h))
          (amap_find acc.members h) := by
  induction cs generalizing acc with
  | nil => rfl
  | cons c rest ih =>
    rw [List.foldl_cons, List.foldl_cons,
      ih _ (fun x hx => hcs x (List.mem_cons_of_mem _ hx))]
    have hc := hcs c (List.mem_cons_self _ _)
    simp only [branch_context.absorb]
    rw [merge_members_find _ _ _ hc.1]

theorem foldl_absorb_role (cs : List branch_context) (acc : branch_context) (n : String)
    (hcs : ∀ c ∈ cs, c.wf) :
    amap_find (cs.foldl branch_context.absorb acc).roles n
      = cs.foldl (fun x c => role_pick x (amap_find c.roles n)) (amap_find acc.roles n) := by
  induction cs generalizing acc with
  | nil => rfl
  | cons c rest ih =>
    rw [List.foldl_cons, List.foldl_cons,
      ih _ (fun x hx => hcs x (List.mem_cons_of_mem _ hx))]
    have hc := hcs c (List.mem_cons_self _ _)
    simp only [branch_context.absorb]
    rw [merge_roles_find _ _ _ hc.2.1]

/-! ## `merge_patch` on normal documents -/

theorem normal_items_cons (k : String) (v : Json) (rest : List (String × Json)) :
    Json.normal_items ((k, v) :: rest) = true ↔
      v.is_null = false ∧ v.normal = true ∧ amap_find rest k = none ∧
        Json.normal_items rest = true := by
  simp [Json.normal_items, and_assoc]

theorem merge_patch_of_not_null (t v : Json) (h : v.is_null = false) :
    (Json.merge_patch t v).is_null = false := by
  cases v <;> simp_all [Json.merge_patch, Json.is_null]

mutual
theorem merge_patch_null_normal :
    (x : Json) → x.normal = true → Json.merge_patch Json.null x = x
  | Json.obj kvs, h => by
    have h2 : Json.normal_items kvs = true := by simpa [Json.normal] using h
    have h3 := merge_patch_items_fresh kvs [] h2 (fun _ _ => rfl)
    simp [Json.merge_patch, Json.members, h3]
  | Json.null, _ => rfl
  | Json.bool _, _ => rfl
  | Json.num _, _ => rfl
  | Json.str _, _ => rfl
  | Json.arr _, _ => rfl
theorem merge_patch_items_fresh :
    (kvs : List (String × Json)) → (t : List (String × Json)) →
      Json.normal_items kvs = true → (∀ k ∈ amap_keys kvs, amap_find t k = none) →
      Json.merge_patch_items t kvs = t ++ kvs
  | [], t, _, _ => by simp [Json.merge_patch_items]
  | (k, v) :: rest, t, h, hfresh => by
    obtain ⟨hv1, hv2, hk, hrest⟩ := (normal_items_cons k v rest).mp h
    have hv := merge_patch_null_normal v hv2
    have htk : amap_find t k = none := hfresh k (by simp [amap_keys])
    have hfresh2 : ∀ k' ∈ amap_keys rest, amap_find (t ++ [(k, v)]) k' = none := by
      intro k' hk'
      rw [← amap_set_absent t k v htk, amap_find_set]
      have hne : ¬ k = k' := by
        intro e
        rw [← e] at hk'
        exact (amap_find_eq_none rest k).mp hk hk'
      simp only [hne, if_false]
      exact hfresh k' (by simp only [amap_keys, List.map_cons, List.mem_cons]; exact Or.inr hk')
    have ih := merge_patch_items_fresh rest (t ++ [(k, v)]) hrest hfresh2
    simp only [Json.merge_patch_items, hv1, amap_at, htk, Option.getD_none, hv,
      amap_set_absent t k v htk, ih]
    simp
end

theorem amap_find_erase_none {V : Type} (m : List (String × V)) (k n : String)
    (h : amap_find m n = none) : amap_find (amap_erase m k) n = none := by
  induction m with
  | nil => rfl
  | cons e rest ih =>
    obtain ⟨k', v'⟩ := e
    by_cases h2 : k' = n
    · simp [amap_find, h2] at h
    · simp only [amap_find, h2, if_false] at h
      by_cases h3 : k' = k
      · simp [amap_erase, h3, h]
      · simp [amap_erase, h3, amap_find, h2, ih h]

theorem normal_items_erase (t : List (String × Json)) (k : String)
    (h : Json.normal_items t = true) : Json.normal_items (amap_erase t k) = true := by
  induction t with
  | nil => rfl
  | cons e rest ih =>
    obtain ⟨k', v'⟩ := e
    obtain ⟨h1, h2, h3, h4⟩ := (normal_items_cons k' v' rest).mp h
    by_cases hk : k' = k
    · simpa [amap_erase, hk] using h4
    · simp only [amap_erase, hk, if_false]
      exact (normal_items_cons k' v' _).mpr
        ⟨h1, h2, amap_find_erase_none rest k k' h3, ih h4⟩

theorem normal_items_set (t : List (String × Json)) (k : String) (v : Json)
    (h : Json.normal_items t = true) (hv1 : v.is_null = false) (hv2 : v.normal = true) :
    Json.normal_items (amap_set t k v) = true := by
  induction t with
  | nil => simp [amap_set, Json.normal_items, hv1, hv2, amap_find]
  | cons e rest ih =>
    obtain ⟨k', v'⟩ := e
    obtain ⟨h1, h2, h3, h4⟩ := (normal_items_cons k' v' rest).mp h
    by_cases hk : k' = k
    · subst hk
      simp only [amap_set, if_true]
      exact (normal_items_cons k' v rest).mpr ⟨hv1, hv2, h3, h4⟩
    · simp only [amap_set, hk, if_false]
      refine (normal_items_cons k' v' _).mpr ⟨h1, h2, ?_, ih h4⟩
      rw [amap_find_set]
      have hne : ¬ k = k' := fun e => hk e.symm
      simp [hne, h3]

theorem normal_items_at (t : List (String × Json)) (k : String)
    (h : Json.normal_items t = true) : (amap_at Json.null t k).normal = true := by
  induction t with
  | nil => rfl
  | cons e rest ih =>
    obtain ⟨k', v'⟩ := e
    obtain ⟨h1, h2, h3, h4⟩ := (normal_items_cons k' v' rest).mp h
    by_cases hk : k' = k
    · simpa [amap_at, amap_find, hk] using h2
    · have := ih h4
      simpa [amap_at, amap_find, hk] using this

theorem normal_members (t : Json) (h : t.normal = true) :
    Json.normal_items t.members = true := by
  cases t <;> first | rfl | simpa [Json.normal, Json.members] using h

mutual
theorem normal_merge_patch :
    (p : Json) → (t : Json) → t.normal = true → (Json.merge_patch t p).normal = true
  | Json.obj kvs, t, h => by
    have h2 := normal_merge_patch_items kvs t.members (normal_members t h)
    simpa [Json.merge_patch, Json.normal] using h2
  | Json.null, _, _ => rfl
  | Json.bool _, _, _ => rfl
  | Json.num _, _, _ => rfl
  | Json.str _, _, _ => rfl
  | Json.arr _, _, _ => rfl
theorem normal_merge_patch_items :
    (kvs : List (String × Json)) → (t : List (String × Json)) →
      Json.normal_items t = true → Json.normal_items (Json.merge_patch_items t kvs) = true
  | [], t, h => by simpa [Json.merge_patch_items] using h
  | (k, v) :: rest, t, h => by
    cases hv : v.is_null with
    | true =>
      simp only [Json.merge_patch_items, hv, if_true]
      exact normal_merge_patch_items rest _ (normal_items_erase t k h)
    | false =>
      simp only [Json.merge_patch_items, hv]
      exact normal_merge_patch_items rest _
        (normal_items_set t k _ h (merge_patch_of_not_null _ v hv)
          (normal_merge_patch v _ (normal_items_at t k h)))
end

/-! ## The algebra of the three picks -/

theorem rank_greater_assoc (x y z : Option Int) :
    rank_greater (rank_greater x y) z = rank_greater x (rank_greater y z) := by
  cases x <;> cases y <;> cases z <;> simp only [rank_greater]
  rename_i a b c
  congr 1
  split_ifs <;> omega

theorem foldl_rank_greater (xs : List (Option Int)) (x : Option Int) :
    xs.foldl rank_greater x = rank_greater x (xs.foldl rank_greater none) := by
  induction xs using List.reverseRecOn with
  | nil => exact (rank_greater_none_right x).symm
  | append_singleton ys y ih =>
    simp only [List.foldl_append, List.foldl_cons, List.foldl_nil]
    rw [ih, rank_greater_assoc]

theorem foldl_rank_greater_in_range (xs : List (Option Int)) (x : Option Int)
    (hx : rank_in_range x) (hxs : ∀ y ∈ xs, rank_in_range y) :
    rank_in_range (xs.foldl rank_greater x) := by
  induction xs generalizing x with
  | nil => exact hx
  | cons y rest ih =>
    rw [List.foldl_cons]
    exact ih _ (rank_greater_in_range x y hx (hxs y (List.mem_cons_self _ _)))
      (fun z hz => hxs z (List.mem_cons_of_mem _ hz))

/-! ## Merging a single state -/

theorem merge_members_fresh (input acc : List (String × member)) (hwf : amap_wf input)
    (hfresh : ∀ k ∈ amap_keys input, amap_find acc k = none) :
    merge_members acc input = acc ++ input := by
  unfold merge_members
  induction input generalizing acc with
  | nil => simp
  | cons e rest ih =>
    obtain ⟨k, v⟩ := e
    simp only [amap_wf, amap_keys, List.map_cons, List.nodup_cons] at hwf
    have hk : amap_find acc k = none := hfresh k (by simp [amap_keys])
    rw [List.foldl_cons]
    simp only [hk]
    rw [amap_set_absent acc k v hk, ih _ hwf.2]
    · simp
    · intro k' hk'
      rw [← amap_set_absent acc k v hk, amap_find_set]
      have hne : ¬ k = k' := by
        intro e
        rw [← e] at hk'
        exact hwf.1 hk'
      simp only [hne, if_false]
      exact hfresh k' (by simp only [amap_keys, List.map_cons, List.mem_cons]; exact Or.inr hk')

/-- C1 (as amended): for a state A whose maps have distinct keys, merging `[A]`
yields exactly the members of A, the role names of A with every role of
positive version exactly as in A, and the settings of A patched onto null,
which are the settings of A when no object in them has a null member or a
repeated key. -/
theorem merge_single (A : branch_context) (hA : A.wf) :
    (branch_context.merge [A]).members = A.members ∧
    (∀ name, amap_find (branch_context.merge [A]).roles name = none
        ↔ amap_find A.roles name = none) ∧
    (∀ name r v, amap_find A.roles name = some (r, v) → 0 < v →
        amap_find (branch_context.merge [A]).roles name = some (r, v)) ∧
    (branch_context.merge [A]).settings = Json.merge_patch Json.null A.settings ∧
    (A.settings.normal = true → (branch_context.merge [A]).settings = A.settings) := by
  refine ⟨?_, ?_, ?_, rfl, ?_⟩
  · have h := merge_members_fresh A.members [] hA.1 (fun _ _ => rfl)
    simpa [branch_context.merge, branch_context.absorb, branch_context.blank] using h
  · intro name
    have h := merge_roles_find [] A.roles name hA.2.1
    simp only [branch_context.merge, branch_context.absorb, branch_context.blank,
      List.foldl_cons, List.foldl_nil]
    rw [h]
    cases amap_find A.roles name <;> simp [role_pick, amap_find]
  · intro name r v hf hv
    have h := merge_roles_find [] A.roles name hA.2.1
    simp only [branch_context.merge, branch_context.absorb, branch_context.blank,
      List.foldl_cons, List.foldl_nil]
    rw [h, hf]
    simp [role_pick, amap_find, role_pair_zero, hv]
  · intro hn
    exact merge_patch_null_normal A.settings hn

theorem sample_ctx_wf : sample_ctx.wf := by
  simp [branch_context.wf, sample_ctx, amap_wf, amap_keys]

/-- C1, witness: the sample state is well formed and merging it alone gives
back its members, its role `mod` and its settings. -/
theorem merge_single_witness :
    sample_ctx.wf ∧
    (branch_context.merge [sample_ctx]).members = sample_ctx.members ∧
    amap_find (branch_context.merge [sample_ctx]).roles "mod"
      = amap_find sample_ctx.roles "mod" ∧
    (branch_context.merge [sample_ctx]).settings = sample_ctx.settings :=
  ⟨sample_ctx_wf, (merge_single sample_ctx sample_ctx_wf).1,
    (merge_single sample_ctx sample_ctx_wf).2.2.1 "mod" _ 1 rfl (by decide),
    (merge_single sample_ctx sample_ctx_wf).2.2.2.2 rfl⟩

/-- C1, counterexample: merging the single state whose settings are
`{"a": null}` yields the settings `{}`, so the merged state is not the input. -/
theorem merge_single_not_identity :
    ¬ ((branch_context.merge [null_setting_ctx]).members = null_setting_ctx.members ∧
       (branch_context.merge [null_setting_ctx]).roles = null_setting_ctx.roles ∧
       (branch_context.merge [null_setting_ctx]).settings = null_setting_ctx.settings) := by
  intro h
  have h2 : (branch_context.merge [null_setting_ctx]).settings = Json.obj [] := rfl
  rw [h2] at h
  simp [null_setting_ctx] at h

/-! ## `apply_data` on concrete messages -/

/-- C2, the code at the failing input: the role message of `u1` is rejected
for insufficient primacy, yet the state it leaves has an entry for the role
`new` (the value-initialised pair) that the state before did not have. -/
theorem apply_data_reject_leaves_role :
    (sample_srv.apply_data sample_env sample_ctx [] crole_too_strong "body" "sig" "h0").accepted
      = false ∧
    amap_find sample_ctx.roles "new" = none ∧
    amap_find
      (sample_srv.apply_data sample_env sample_ctx [] crole_too_strong "body" "sig" "h0").ctx.roles
      "new" = some role_pair_zero := by
  refine ⟨?_, ?_, ?_⟩ <;> rfl

/-- C7, the code at the failing input: a message of supertype `a` whose type
is unknown is accepted on a state that has members. -/
theorem apply_data_accepts_unknown_admin :
    sample_ctx.members ≠ [] ∧
    (sample_srv.apply_data sample_env sample_ctx [] admin_unknown_type "body" "sig" "h0").accepted
      = true := by
  refine ⟨?_, ?_⟩
  · simp [sample_ctx]
  · rfl

/-! ## Capability codes -/

theorem int_land_zero (x : Int) : Int.land x 0 = 0 := by
  cases x with
  | ofNat n => simp [Int.land]
  | negSucc n => simp [Int.land, Nat.ldiff]

theorem moving_filter_zero (n : Nat) :
    (List.range n).foldl (fun (f : Int) _ => f * 2) 0 = 0 := by
  induction n with
  | zero => rfl
  | succ k ih => rw [List.range_succ, List.foldl_append, ih]; rfl

theorem decode_features_clear (encoded_features : Int) (i : Fin 6) :
    decode_features encoded_features i = false := by
  simp [decode_features, moving_filter_zero, int_land_zero]

/-! ## The two queries read the roles and only add value-initialised ones -/

theorem amap_at_index {V : Type} (d : V) (m : List (String × V)) (k n : String) :
    amap_at d (amap_index d m k) n = amap_at d m n := by
  unfold amap_at
  rw [amap_find_index]
  by_cases h : k = n
  · subst h; simp [amap_at]
  · simp [h]

theorem has_feature_foldl (index : Fin 6) (roles0 : List (String × (role × Int)))
    (ranks : List (String × Int)) (b : Bool) (c : branch_context)
    (hc : ∀ n, amap_at role_pair_zero c.roles n = amap_at role_pair_zero roles0 n) :
    (ranks.foldl (has_feature_step index) (b, c)).1 = (b || feature_held roles0 ranks index) ∧
    (∀ n, amap_at role_pair_zero (ranks.foldl (has_feature_step index) (b, c)).2.roles n
        = amap_at role_pair_zero roles0 n) ∧
    (ranks.foldl (has_feature_step index) (b, c)).2.members = c.members ∧
    (ranks.foldl (has_feature_step index) (b, c)).2.settings = c.settings := by
  induction ranks generalizing b c with
  | nil => simp [hc, feature_held]
  | cons e rest ih =>
    rw [List.foldl_cons]
    by_cases hneg : e.2 < 0
    · have h0 : ¬ (0 ≤ e.2) := by omega
      have h1 : has_feature_step index (b, c) e = (b, c) := by simp [has_feature_step, hneg]
      rw [h1]
      have := ih b c hc
      simpa [feature_held, h0] using this
    · have h0 : 0 ≤ e.2 := by omega
      have h1 : has_feature_step index (b, c) e
          = (b || (amap_at role_pair_zero c.roles e.1).1.features index,
              { c with roles := amap_index role_pair_zero c.roles e.1 }) := by
        simp [has_feature_step, hneg]
      rw [h1]
      have := ih (b || (amap_at role_pair_zero c.roles e.1).1.features index)
        { c with roles := amap_index role_pair_zero c.roles e.1 }
        (fun n => by simp only [amap_at_index]; exact hc n)
      simpa [feature_held, h0, hc e.1, Bool.or_assoc] using this

theorem has_feature_fst (ctx : branch_context) (target : member) (index : Fin 6) :
    (ctx.has_feature target index).1 = feature_held ctx.roles target.roles_ranks index := by
  have := (has_feature_foldl index ctx.roles target.roles_ranks false ctx (fun _ => rfl)).1
  simpa [branch_context.has_feature] using this

theorem has_feature_roles (ctx : branch_context) (target : member) (index : Fin 6) (n : String) :
    amap_at role_pair_zero (ctx.has_feature target index).2.roles n
      = amap_at role_pair_zero ctx.roles n :=
  (has_feature_foldl index ctx.roles target.roles_ranks false ctx (fun _ => rfl)).2.1 n

theorem has_feature_members (ctx : branch_context) (target : member) (index : Fin 6) :
    (ctx.has_feature target index).2.members = ctx.members :=
  (has_feature_foldl index ctx.roles target.roles_ranks false ctx (fun _ => rfl)).2.2.1

theorem has_feature_settings (ctx : branch_context) (target : member) (index : Fin 6) :
    (ctx.has_feature target index).2.settings = ctx.settings :=
  (has_feature_foldl index ctx.roles target.roles_ranks false ctx (fun _ => rfl)).2.2.2

theorem min_primacy_foldl (roles0 : List (String × (role × Int)))
    (ranks : List (String × Int)) (b : Nat) (c : branch_context)
    (hc : ∀ n, amap_at role_pair_zero c.roles n = amap_at role_pair_zero roles0 n) :
    (ranks.foldl min_primacy_step (b, c)).1 = least_primacy roles0 ranks b ∧
    (∀ n, amap_at role_pair_zero (ranks.foldl min_primacy_step (b, c)).2.roles n
        = amap_at role_pair_zero roles0 n) ∧
    (ranks.foldl min_primacy_step (b, c)).2.members = c.members ∧
    (ranks.foldl min_primacy_step (b, c)).2.settings = c.settings := by
  induction ranks generalizing b c with
  | nil => simp [hc, least_primacy]
  | cons e rest ih =>
    rw [List.foldl_cons]
    by_cases hneg : e.2 < 0
    · have h1 : min_primacy_step (b, c) e = (b, c) := by simp [min_primacy_step, hneg]
      rw [h1]
      have := ih b c hc
      simpa [least_primacy, hneg] using this
    · have h1 : min_primacy_step (b, c) e
          = (if (amap_at role_pair_zero c.roles e.1).1.primacy % 2 ^ 32 < b then
                (amap_at role_pair_zero c.roles e.1).1.primacy % 2 ^ 32 else b,
              { c with roles := amap_index role_pair_zero c.roles e.1 }) := by
        simp [min_primacy_step, hneg]
      rw [h1]
      have := ih (if (amap_at role_pair_zero c.roles e.1).1.primacy % 2 ^ 32 < b then
                (amap_at role_pair_zero c.roles e.1).1.primacy % 2 ^ 32 else b)
        { c with roles := amap_index role_pair_zero c.roles e.1 }
        (fun n => by simp only [amap_at_index]; exact hc n)
      simpa [least_primacy, hneg, hc e.1] using this

theorem min_primacy_fst (ctx : branch_context) (target : member) :
    (ctx.min_primacy target).1 = least_primacy ctx.roles target.roles_ranks (2 ^ 31 - 1) :=
  (min_primacy_foldl ctx.roles target.roles_ranks _ ctx (fun _ => rfl)).1

theorem min_primacy_roles (ctx : branch_context) (target : member) (n : String) :
    amap_at role_pair_zero (ctx.min_primacy target).2.roles n
      = amap_at role_pair_zero ctx.roles n :=
  (min_primacy_foldl ctx.roles target.roles_ranks _ ctx (fun _ => rfl)).2.1 n

theorem min_primacy_members (ctx : branch_context) (target : member) :
    (ctx.min_primacy target).2.members = ctx.members :=
  (min_primacy_foldl ctx.roles target.roles_ranks _ ctx (fun _ => rfl)).2.2.1

theorem min_primacy_settings (ctx : branch_context) (target : member) :
    (ctx.min_primacy target).2.settings = ctx.settings :=
  (min_primacy_foldl ctx.roles target.roles_ranks _ ctx (fun _ => rfl)).2.2.2

theorem least_primacy_congr (r r' : List (String × (role × Int))) (ranks : List (String × Int))
    (start : Nat) (h : ∀ n, amap_at role_pair_zero r n = amap_at role_pair_zero r' n) :
    least_primacy r ranks start = least_primacy r' ranks start := by
  unfold least_primacy
  simp only [h]

theorem feature_held_congr (r r' : List (String × (role × Int))) (ranks : List (String × Int))
    (index : Fin 6) (h : ∀ n, amap_at role_pair_zero r n = amap_at role_pair_zero r' n) :
    feature_held r ranks index = feature_held r' ranks index := by
  unfold feature_held
  simp only [h]

/-! ## `apply_data`: bootstrap, muted chat, insufficient primacy -/

/-- C8: on a state without members, a message `a`/`nserv` whose declared hash
is the expected one is accepted whatever the signature, and the state then has
exactly one member, stored under the fingerprint of the declared keys and
holding the role `creator` with rank 1. -/
theorem apply_data_bootstrap (env : Externals) (srv : Server) (ctx : branch_context)
    (extra : List (String × Json)) (claf_data : claf) (content signature content_hash : String)
    (hempty : ctx.members = []) (hst : claf_data.st = "a") (ht : claf_data.t = "nserv")
    (hh : content_hash = claf_data.h) :
    (srv.apply_data env ctx extra claf_data content signature content_hash).accepted = true ∧
    (srv.apply_data env ctx extra claf_data content signature content_hash).ctx.members
      = [((env.user_of_keys ⟨claf_data.d.cms.sig_pubk, claf_data.d.cms.enc_pubk⟩).u_trip,
          { user_trip :=
              (env.user_of_keys ⟨claf_data.d.cms.sig_pubk, claf_data.d.cms.enc_pubk⟩).u_trip
            roles_ranks := [("creator", 1)] })] := by
  simp [Server.apply_data, hempty, hst, ht, hh, Server.create_member, amap_set]

/-- C8, witness: the channel-creation message applied to the blank state,
with a signature that is not checked. -/
theorem apply_data_bootstrap_witness :
    (sample_srv.apply_data sample_env branch_context.blank [] nserv_message "body" "no signature"
        "h0").accepted = true ∧
    (sample_srv.apply_data sample_env branch_context.blank [] nserv_message "body" "no signature"
        "h0").ctx.members
      = [("s9e9", { user_trip := "s9e9", roles_ranks := [("creator", 1)] })] :=
  apply_data_bootstrap sample_env sample_srv branch_context.blank [] nserv_message "body"
    "no signature" "h0" rfl rfl rfl rfl

theorem feature_held_of_mem (roles : List (String × (role × Int))) (ranks : List (String × Int))
    (index : Fin 6) (name : String) (rank : Int) (rl : role) (v : Int)
    (hheld : (name, rank) ∈ ranks) (hpos : 0 ≤ rank)
    (hrole : amap_find roles name = some (rl, v)) (hbit : rl.features index = true) :
    feature_held roles ranks index = true := by
  unfold feature_held
  rw [List.any_eq_true]
  exact ⟨(name, rank), hheld, by simp [amap_at, hrole, hbit, hpos]⟩

/-- C9: a chat message (supertype `c`) whose author member holds, with
positive rank, a role that has capability 0 is rejected, whatever else the
author may do and whether or not hash and signature are valid. -/
theorem apply_data_muted_chat (env : Externals) (srv : Server) (ctx : branch_context)
    (extra : List (String × Json)) (claf_data : claf) (content signature content_hash : String)
    (m : member) (name : String) (rank : Int) (rl : role) (v : Int)
    (hst : claf_data.st = "c")
    (hauthor : amap_find ctx.members claf_data.a = some m)
    (hheld : (name, rank) ∈ m.roles_ranks) (hpos : 0 < rank)
    (hrole : amap_find ctx.roles name = some (rl, v)) (hmute : rl.features 0 = true) :
    (srv.apply_data env ctx extra claf_data content signature content_hash).accepted = false := by
  have hm : amap_at member.zero ctx.members claf_data.a = m := by simp [amap_at, hauthor]
  have hmuted : ((({ ctx with members := amap_index member.zero ctx.members claf_data.a } :
      branch_context).min_primacy m).2.has_feature m 0).1 = true := by
    rw [has_feature_fst]
    rw [feature_held_congr _ ctx.roles m.roles_ranks 0
      (fun n => min_primacy_roles
        { ctx with members := amap_index member.zero ctx.members claf_data.a } m n)]
    exact feature_held_of_mem ctx.roles m.roles_ranks 0 name rank rl v hheld (le_of_lt hpos)
      hrole hmute
  unfold Server.apply_data
  simp only [hm, hst]
  split_ifs <;> first | rfl | simp_all

/-- C9, witness: the chat message of `u1`, who holds the role `quiet`. -/
theorem apply_data_muted_chat_witness :
    (sample_srv.apply_data sample_env muted_ctx [] chat_message "body" "sig" "h0").accepted
      = false :=
  apply_data_muted_chat sample_env sample_srv muted_ctx [] chat_message "body" "sig" "h0"
    { user_trip := "u1", roles_ranks := [("quiet", 1)] } "quiet" 1
    { features := fun _ => true, primacy := 2 } 1 rfl rfl (by simp) (by decide) rfl rfl

theorem min_primacy_congr (c c' : branch_context) (target : member)
    (h : ∀ n, amap_at role_pair_zero c.roles n = amap_at role_pair_zero c'.roles n) :
    (c.min_primacy target).1 = (c'.min_primacy target).1 := by
  rw [min_primacy_fst, min_primacy_fst]
  exact least_primacy_congr _ _ _ _ h

theorem apply_crole_insufficient (srv : Server) (ctx : branch_context)
    (extra : List (String × Json)) (author_member : member) (d : claf_payload)
    (hprim : (ctx.min_primacy author_member).1 ≥ d.rp) :
    (apply_crole srv ctx extra author_member d).accepted = false := by
  have hle : d.rp % 2 ^ 32 ≤ d.rp := Nat.mod_le _ _
  have hsame : (({ (ctx.has_feature author_member 4).2 with
        roles := amap_index role_pair_zero (ctx.has_feature author_member 4).2.roles d.rn } :
      branch_context).min_primacy author_member).1 = (ctx.min_primacy author_member).1 := by
    apply min_primacy_congr
    intro n
    simp only [amap_at_index]
    exact has_feature_roles ctx author_member 4 n
  unfold apply_crole
  simp only []
  split_ifs with h1 h2
  · rfl
  · rfl
  · exfalso
    rw [hsame] at h2
    omega

/-- C10: a message `r`/`crole` declaring the primacy `rp` is rejected when the
minimum primacy of its author (the member stored under the author field) is
at least `rp`. -/
theorem apply_data_insufficient_primacy (env : Externals) (srv : Server)
    (ctx : branch_context) (extra : List (String × Json)) (claf_data : claf)
    (content signature content_hash : String)
    (hst : claf_data.st = "r") (ht : claf_data.t = "crole")
    (hprim : (ctx.min_primacy (amap_at member.zero ctx.members claf_data.a)).1
      ≥ claf_data.d.rp) :
    (srv.apply_data env ctx extra claf_data content signature content_hash).accepted = false := by
  have hsame : ((({ ctx with members := amap_index member.zero ctx.members claf_data.a } :
      branch_context).min_primacy (amap_at member.zero ctx.members claf_data.a)).2.min_primacy
        (amap_at member.zero ctx.members claf_data.a)).1
      = (ctx.min_primacy (amap_at member.zero ctx.members claf_data.a)).1 := by
    apply min_primacy_congr
    intro n
    exact min_primacy_roles
      { ctx with members := amap_index member.zero ctx.members claf_data.a } _ n
  have hrej : ∀ s : Server, (apply_crole s
      (({ ctx with members := amap_index member.zero ctx.members claf_data.a } :
        branch_context).min_primacy (amap_at member.zero ctx.members claf_data.a)).2
      extra (amap_at member.zero ctx.members claf_data.a) claf_data.d).accepted = false :=
    fun s => apply_crole_insufficient s _ extra _ claf_data.d (by rw [hsame]; exact hprim)
  unfold Server.apply_data
  simp only [hst, ht]
  split_ifs <;> first | rfl | exact hrej _ | simp_all

/-- C10, witness: `u1` holds primacy 5 and declares primacy 3. -/
theorem apply_data_insufficient_primacy_witness :
    (sample_srv.apply_data sample_env sample_ctx [] crole_too_strong "body" "sig" "h0").accepted
      = false :=
  apply_data_insufficient_primacy sample_env sample_srv sample_ctx [] crole_too_strong "body"
    "sig" "h0" rfl rfl (by decide)

/-! ## Grouping of merges -/

theorem role_settled_none : role_settled none := by
  intro c h
  cases h

theorem role_settled_version (x : Option (role × Int)) (h : role_settled x) :
    0 ≤ (x.getD role_pair_zero).2 := by
  cases x with
  | none => simp [role_pair_zero]
  | some c =>
    rcases h c rfl with h1 | h1
    · exact le_of_lt h1
    · simp [h1, role_pair_zero]

theorem role_pick_settled (x y : Option (role × Int)) (h : role_settled x) :
    role_settled (role_pick x y) := by
  have hv := role_settled_version x h
  cases y with
  | none => exact h
  | some c =>
    intro c' hc'
    simp only [role_pick, Option.some.injEq] at hc'
    by_cases hgt : c.2 > (x.getD role_pair_zero).2
    · rw [if_pos hgt] at hc'
      subst hc'
      exact Or.inl (by omega)
    · rw [if_neg hgt] at hc'
      cases x with
      | none => exact Or.inr (by simpa using hc'.symm)
      | some a => exact h c' (by simpa using hc')

theorem role_pick_none_left (y : Option (role × Int)) (h : role_settled y) :
    role_pick none y = y := by
  cases y with
  | none => rfl
  | some c =>
    rcases h c rfl with h1 | h1
    · simp [role_pick, role_pair_zero, h1]
    · simp [role_pick, h1]

theorem role_pick_assoc (x m z : Option (role × Int)) (hx : role_settled x)
    (hm : role_settled m) :
    role_pick x (role_pick m z) = role_pick (role_pick x m) z := by
  have hvx := role_settled_version x hx
  have hvm := role_settled_version m hm
  cases z with
  | none => rfl
  | some c =>
    cases m with
    | none =>
      simp only [role_pick, Option.getD_none, Option.getD_some] at hvx ⊢
      congr 1
      have h0 : role_pair_zero.2 = 0 := rfl
      split_ifs <;> first | rfl | (exfalso; omega)
    | some a =>
      simp only [role_pick, Option.getD_some] at hvx hvm ⊢
      congr 1
      split_ifs <;> first | rfl | (exfalso; omega)

theorem foldl_role_pick_settled (xs : List (Option (role × Int))) (x : Option (role × Int))
    (hx : role_settled x) : role_settled (xs.foldl role_pick x) := by
  induction xs generalizing x with
  | nil => exact hx
  | cons y rest ih => exact ih _ (role_pick_settled x y hx)

theorem member_rank_in_range (c : branch_context) (hc : c.ranks_in_range) (h n : String) :
    rank_in_range (member_rank c.members h n) := by
  intro r hr
  unfold member_rank at hr
  cases hm : amap_find c.members h with
  | none =>
    rw [hm] at hr
    cases hr
  | some m =>
    rw [hm] at hr
    exact hc (h, m) (amap_find_mem _ _ _ hm) (n, r) (amap_find_mem _ _ _ hr)

theorem merge_rank (cs : List branch_context) (h n : String) (hcs : ∀ c ∈ cs, c.wf)
    (hr : ∀ c ∈ cs, rank_in_range (member_rank c.members h n)) :
    member_rank (branch_context.merge cs).members h n
      = (cs.map (fun c => member_rank c.members h n)).foldl rank_greater none := by
  rw [List.foldl_map]
  exact foldl_absorb_rank cs branch_context.blank h n hcs rank_in_range_none hr

theorem merge_rank_in_range (cs : List branch_context) (h n : String) (hcs : ∀ c ∈ cs, c.wf)
    (hr : ∀ c ∈ cs, rank_in_range (member_rank c.members h n)) :
    rank_in_range (member_rank (branch_context.merge cs).members h n) := by
  rw [merge_rank cs h n hcs hr]
  apply foldl_rank_greater_in_range _ _ rank_in_range_none
  intro y hy
  obtain ⟨c, hc, rfl⟩ := List.mem_map.mp hy
  exact hr c hc

theorem merge_member (cs : List branch_context) (h : String) (hcs : ∀ c ∈ cs, c.wf) :
    amap_find (branch_context.merge cs).members h
      = (cs.map (fun c => amap_find c.members h)).foldl member_pick none := by
  rw [List.foldl_map]
  exact foldl_absorb_member cs branch_context.blank h hcs

theorem merge_trip (cs : List branch_context) (h : String) (hcs : ∀ c ∈ cs, c.wf) :
    member_trip (branch_context.merge cs).members h
      = (cs.map (fun c => member_trip c.members h)).foldl
          (fun x y => x.orElse (fun _ => y)) none := by
  rw [List.foldl_map]
  exact foldl_absorb_trip cs branch_context.blank h hcs

theorem merge_role (cs : List branch_context) (n : String) (hcs : ∀ c ∈ cs, c.wf) :
    amap_find (branch_context.merge cs).roles n
      = (cs.map (fun c => amap_find c.roles n)).foldl role_pick none := by
  rw [List.foldl_map]
  exact foldl_absorb_role cs branch_context.blank n hcs

theorem merge_role_settled (cs : List branch_context) (n : String) (hcs : ∀ c ∈ cs, c.wf) :
    role_settled (amap_find (branch_context.merge cs).roles n) := by
  rw [merge_role cs n hcs]
  exact foldl_role_pick_settled _ none role_settled_none

theorem merge_settings_normal (cs : List branch_context) :
    (branch_context.merge cs).settings.normal = true := by
  have key : ∀ (l : List branch_context) (acc : branch_context), acc.settings.normal = true →
      (l.foldl branch_context.absorb acc).settings.normal = true := by
    intro l
    induction l with
    | nil => intro acc h; exact h
    | cons c rest ih =>
      intro acc h
      rw [List.foldl_cons]
      exact ih _ (normal_merge_patch c.settings acc.settings h)
  exact key cs branch_context.blank rfl

theorem forall_mem_pair {α : Type} (P : α → Prop) (a b : α) (ha : P a) (hb : P b) :
    ∀ c ∈ [a, b], P c := by
  intro c hc
  simp only [List.mem_cons, List.mem_singleton, List.not_mem_nil, or_false] at hc
  rcases hc with rfl | rfl <;> assumption

theorem forall_mem_triple {α : Type} (P : α → Prop) (a b c : α) (ha : P a) (hb : P b)
    (hc : P c) : ∀ x ∈ [a, b, c], P x := by
  intro x hx
  simp only [List.mem_cons, List.mem_singleton, List.not_mem_nil, or_false] at hx
  rcases hx with rfl | rfl | rfl <;> assumption

/-- C3 (as amended): for states A, B, C whose maps have distinct keys and
whose ranks are `int` values other than `INT_MIN`, the three groupings
`[[A,B],C]`, `[A,B,C]` and `[A,[B,C]]` merge to the same members and roles,
and the first two also to the same settings. -/
theorem merge_grouping (A B C : branch_context) (hA : A.wf) (hB : B.wf) (hC : C.wf)
    (hrA : A.ranks_in_range) (hrB : B.ranks_in_range) (hrC : C.ranks_in_range) :
    (branch_context.merge [branch_context.merge [A, B], C]).same_members_roles
      (branch_context.merge [A, B, C]) ∧
    (branch_context.merge [A, branch_context.merge [B, C]]).same_members_roles
      (branch_context.merge [A, B, C]) ∧
    (branch_context.merge [branch_context.merge [A, B], C]).settings
      = (branch_context.merge [A, B, C]).settings := by
  have hAB : ∀ c ∈ [A, B], c.wf := by
    intro c hc
    simp only [List.mem_cons, List.mem_singleton, List.not_mem_nil, or_false] at hc
    rcases hc with rfl | rfl <;> assumption
  have hBC : ∀ c ∈ [B, C], c.wf := by
    intro c hc
    simp only [List.mem_cons, List.mem_singleton, List.not_mem_nil, or_false] at hc
    rcases hc with rfl | rfl <;> assumption
  have hABC : ∀ c ∈ [A, B, C], c.wf := by
    intro c hc
    simp only [List.mem_cons, List.mem_singleton, List.not_mem_nil, or_false] at hc
    rcases hc with rfl | rfl | rfl <;> assumption
  have hL : ∀ c ∈ [branch_context.merge [A, B], C], c.wf := by
    intro c hc
    simp only [List.mem_cons, List.mem_singleton, List.not_mem_nil, or_false] at hc
    rcases hc with rfl | rfl
    · exact merge_wf _ hAB
    · exact hC
  have hR : ∀ c ∈ [A, branch_context.merge [B, C]], c.wf := by
    intro c hc
    simp only [List.mem_cons, List.mem_singleton, List.not_mem_nil, or_false] at hc
    rcases hc with rfl | rfl
    · exact hA
    · exact merge_wf _ hBC
  refine ⟨⟨?_, ?_, ?_⟩, ⟨?_, ?_, ?_⟩, ?_⟩
  · intro h
    rw [merge_trip _ h hL, merge_trip _ h hABC]
    simp only [List.map_cons, List.map_nil, List.foldl_cons, List.foldl_nil]
    rw [merge_trip _ h hAB]
    simp only [List.map_cons, List.map_nil, List.foldl_cons, List.foldl_nil]
    cases member_trip A.members h <;> cases member_trip B.members h <;>
      cases member_trip C.members h <;> rfl
  · intro h n
    have ra := member_rank_in_range A hrA h n
    have rb := member_rank_in_range B hrB h n
    have rc := member_rank_in_range C hrC h n
    have rAB := forall_mem_pair (fun c => rank_in_range (member_rank c.members h n)) A B ra rb
    have rABC := forall_mem_triple (fun c => rank_in_range (member_rank c.members h n))
      A B C ra rb rc
    have rL := forall_mem_pair (fun c => rank_in_range (member_rank c.members h n))
      (branch_context.merge [A, B]) C (merge_rank_in_range _ h n hAB rAB) rc
    rw [merge_rank _ h n hL rL, merge_rank _ h n hABC rABC]
    simp only [List.map_cons, List.map_nil, List.foldl_cons, List.foldl_nil]
    rw [merge_rank _ h n hAB rAB]
    simp only [List.map_cons, List.map_nil, List.foldl_cons, List.foldl_nil,
      rank_greater_none_left]
  · intro n
    have hs := merge_role_settled [A, B] n hAB
    rw [merge_role _ n hL, merge_role _ n hABC]
    simp only [List.map_cons, List.map_nil, List.foldl_cons, List.foldl_nil]
    rw [role_pick_none_left _ hs, merge_role _ n hAB]
    simp only [List.map_cons, List.map_nil, List.foldl_cons, List.foldl_nil]
  · intro h
    rw [merge_trip _ h hR, merge_trip _ h hABC]
    simp only [List.map_cons, List.map_nil, List.foldl_cons, List.foldl_nil]
    rw [merge_trip _ h hBC]
    simp only [List.map_cons, List.map_nil, List.foldl_cons, List.foldl_nil]
    cases member_trip A.members h <;> cases member_trip B.members h <;>
      cases member_trip C.members h <;> rfl
  · intro h n
    have ra := member_rank_in_range A hrA h n
    have rb := member_rank_in_range B hrB h n
    have rc := member_rank_in_range C hrC h n
    have rBC := forall_mem_pair (fun c => rank_in_range (member_rank c.members h n)) B C rb rc
    have rABC := forall_mem_triple (fun c => rank_in_range (member_rank c.members h n))
      A B C ra rb rc
    have rR := forall_mem_pair (fun c => rank_in_range (member_rank c.members h n))
      A (branch_context.merge [B, C]) ra (merge_rank_in_range _ h n hBC rBC)
    rw [merge_rank _ h n hR rR, merge_rank _ h n hABC rABC]
    simp only [List.map_cons, List.map_nil, List.foldl_cons, List.foldl_nil]
    rw [merge_rank _ h n hBC rBC]
    simp only [List.map_cons, List.map_nil, List.foldl_cons, List.foldl_nil,
      rank_greater_none_left, rank_greater_assoc]
  · intro n
    rw [merge_role _ n hR, merge_role _ n hABC]
    simp only [List.map_cons, List.map_nil, List.foldl_cons, List.foldl_nil]
    rw [merge_role _ n hBC]
    simp only [List.map_cons, List.map_nil, List.foldl_cons, List.foldl_nil]
    have hx := role_pick_settled none (amap_find A.roles n) role_settled_none
    have hb := role_pick_settled none (amap_find B.roles n) role_settled_none
    rw [role_pick_assoc _ _ (amap_find C.roles n) hx hb,
      role_pick_assoc _ none (amap_find B.roles n) hx role_settled_none]
    rfl
  · have hn := merge_settings_normal [A, B]
    have h1 : (branch_context.merge [branch_context.merge [A, B], C]).settings
        = Json.merge_patch (Json.merge_patch Json.null (branch_context.merge [A, B]).settings)
            C.settings := rfl
    rw [h1, merge_patch_null_normal _ hn]
    rfl

theorem sample_ctx_later_wf : sample_ctx_later.wf := by
  simp [branch_context.wf, sample_ctx_later, amap_wf, amap_keys]

theorem sample_ctx_in_range : sample_ctx.ranks_in_range := by
  simp [branch_context.ranks_in_range, sample_ctx]

theorem sample_ctx_later_in_range : sample_ctx_later.ranks_in_range := by
  simp [branch_context.ranks_in_range, sample_ctx_later]

theorem blank_in_range : branch_context.blank.ranks_in_range := by
  simp [branch_context.ranks_in_range, branch_context.blank]

/-- C3, witness: grouping the sample state, its later version and the blank
state, whose ranks are 1 and -2; in each grouping `u1` ends with rank -2 for
`mod`. -/
theorem merge_grouping_witness :
    sample_ctx.wf ∧ sample_ctx_later.wf ∧ branch_context.blank.wf ∧
    sample_ctx.ranks_in_range ∧ sample_ctx_later.ranks_in_range ∧
    branch_context.blank.ranks_in_range ∧
    member_rank (branch_context.merge
        [sample_ctx, branch_context.merge [sample_ctx_later, branch_context.blank]]).members
        "u1" "mod"
      = member_rank
          (branch_context.merge [sample_ctx, sample_ctx_later, branch_context.blank]).members
          "u1" "mod" :=
  ⟨sample_ctx_wf, sample_ctx_later_wf, blank_wf, sample_ctx_in_range,
    sample_ctx_later_in_range, blank_in_range,
    (merge_grouping sample_ctx sample_ctx_later branch_context.blank sample_ctx_wf
      sample_ctx_later_wf blank_wf sample_ctx_in_range sample_ctx_later_in_range
      blank_in_range).2.1.2.1 "u1" "mod"⟩

/-- C3, counterexample: with settings `{"a": {"b": 1}}`, `{"a": 2}` and
`{"a": {"c": 3}}` the grouping `[A,[B,C]]` ends with `{"a": {"b": 1, "c": 3}}`
and the flat merge with `{"a": {"c": 3}}`, so the three groupings do not agree
on the settings. -/
theorem merge_grouping_settings_differ :
    ¬ ((branch_context.merge
          [branch_context.merge [settings_ctx_a, settings_ctx_b], settings_ctx_c]).settings
        = (branch_context.merge [settings_ctx_a, settings_ctx_b, settings_ctx_c]).settings ∧
       (branch_context.merge [settings_ctx_a, settings_ctx_b, settings_ctx_c]).settings
        = (branch_context.merge
            [settings_ctx_a, branch_context.merge [settings_ctx_b, settings_ctx_c]]).settings) := by
  intro h
  have h1 : (branch_context.merge [settings_ctx_a, settings_ctx_b, settings_ctx_c]).settings
      = Json.obj [("a", Json.obj [("c", Json.num 3)])] := rfl
  have h2 : (branch_context.merge
      [settings_ctx_a, branch_context.merge [settings_ctx_b, settings_ctx_c]]).settings
      = Json.obj [("a", Json.obj [("b", Json.num 1), ("c", Json.num 3)])] := rfl
  rw [h1, h2] at h
  simp at h

/-! ## Order of the inputs -/

theorem disjoint_symm (a b : branch_context) (h : a.disjoint b) : b.disjoint a :=
  ⟨fun k hk hk' => h.1 k hk' hk, fun k hk hk' => h.2 k hk' hk⟩

theorem disjoint_member (a b : branch_context) (hd : a.disjoint b) (h : String) :
    amap_find a.members h = none ∨ amap_find b.members h = none := by
  by_cases hk : h ∈ amap_keys a.members
  · right
    exact (amap_find_eq_none b.members h).mpr (hd.1 h hk)
  · left
    exact (amap_find_eq_none a.members h).mpr hk

theorem disjoint_trip (a b : branch_context) (hd : a.disjoint b) (h : String) :
    member_trip a.members h = none ∨ member_trip b.members h = none := by
  by_cases hk : h ∈ amap_keys a.members
  · right
    have := (amap_find_eq_none b.members h).mpr (hd.1 h hk)
    simp [member_trip, this]
  · left
    have := (amap_find_eq_none a.members h).mpr hk
    simp [member_trip, this]

theorem disjoint_role (a b : branch_context) (hd : a.disjoint b) (n : String) :
    amap_find a.roles n = none ∨ amap_find b.roles n = none := by
  by_cases hk : n ∈ amap_keys a.roles
  · right
    exact (amap_find_eq_none b.roles n).mpr (hd.2 n hk)
  · left
    exact (amap_find_eq_none a.roles n).mpr hk

theorem perm_foldl_of_none {α β : Type} (f : β → Option α → β) (hf : ∀ z, f z none = z)
    (g : branch_context → Option α) (cs cs' : List branch_context) (hperm : cs.Perm cs')
    (hdis : cs.Pairwise branch_context.disjoint)
    (hg : ∀ a b : branch_context, a.disjoint b → g a = none ∨ g b = none) (init : β) :
    cs.foldl (fun z c => f z (g c)) init = cs'.foldl (fun z c => f z (g c)) init := by
  apply List.Perm.foldl_eq' hperm
  intro x hx y hy z
  by_cases hxy : x = y
  · rw [hxy]
  · have hd : x.disjoint y :=
      List.Pairwise.forall (fun a b h => disjoint_symm a b h) hdis hx hy hxy
    rcases hg x y hd with h1 | h1 <;> simp [h1, hf]

/-- C4 (as amended): when no member id and no role name occurs in more than
one input (and the maps of each input have distinct keys), every permutation
of the input list merges to the same members and the same roles. -/
theorem merge_perm (cs cs' : List branch_context) (hperm : cs.Perm cs')
    (hwf : ∀ c ∈ cs, c.wf) (hdis : cs.Pairwise branch_context.disjoint) :
    (branch_context.merge cs).same_members_roles (branch_context.merge cs') := by
  have hwf' : ∀ c ∈ cs', c.wf := fun c hc => hwf c (hperm.mem_iff.mpr hc)
  refine ⟨?_, ?_, ?_⟩
  · intro h
    rw [merge_trip cs h hwf, merge_trip cs' h hwf', List.foldl_map, List.foldl_map]
    exact perm_foldl_of_none (fun x y => x.orElse (fun _ => y)) (fun z => by cases z <;> rfl)
      (fun c => member_trip c.members h) cs cs' hperm hdis
      (fun a b hd => disjoint_trip a b hd h) none
  · intro h n
    have hm : amap_find (branch_context.merge cs).members h
        = amap_find (branch_context.merge cs').members h := by
      rw [merge_member cs h hwf, merge_member cs' h hwf', List.foldl_map, List.foldl_map]
      exact perm_foldl_of_none member_pick (fun z => by cases z <;> rfl)
        (fun c => amap_find c.members h) cs cs' hperm hdis
        (fun a b hd => disjoint_member a b hd h) none
    unfold member_rank
    rw [hm]
  · intro n
    rw [merge_role cs n hwf, merge_role cs' n hwf', List.foldl_map, List.foldl_map]
    exact perm_foldl_of_none role_pick (fun z => by cases z <;> rfl)
      (fun c => amap_find c.roles n) cs cs' hperm hdis
      (fun a b hd => disjoint_role a b hd n) none

theorem other_ctx_wf : other_ctx.wf := by
  simp [branch_context.wf, other_ctx, amap_wf, amap_keys]

theorem sample_other_disjoint : sample_ctx.disjoint other_ctx := by
  simp [branch_context.disjoint, sample_ctx, other_ctx, amap_keys]

/-- C4, witness: the sample state and a state with another member and another
role, merged in both orders. -/
theorem merge_perm_witness :
    [sample_ctx, other_ctx].Perm [other_ctx, sample_ctx] ∧
    [sample_ctx, other_ctx].Pairwise branch_context.disjoint ∧
    (branch_context.merge [sample_ctx, other_ctx]).same_members_roles
      (branch_context.merge [other_ctx, sample_ctx]) :=
  ⟨List.Perm.swap _ _ _, by simp [sample_other_disjoint],
    merge_perm [sample_ctx, other_ctx] [other_ctx, sample_ctx] (List.Perm.swap _ _ _)
      (by
        intro c hc
        simp only [List.mem_cons, List.mem_singleton, List.not_mem_nil, or_false] at hc
        rcases hc with rfl | rfl
        · exact sample_ctx_wf
        · exact other_ctx_wf)
      (by simp [sample_other_disjoint])⟩

/-- C4, counterexample: two states without members or roles, hence without
overlap, whose settings are `{"a": {"b": 1}}` and `{"a": 2}`, merge to
`{"a": 2}` in one order and to `{"a": {"b": 1}}` in the other. -/
theorem merge_perm_settings_differ :
    [settings_ctx_a, settings_ctx_b].Perm [settings_ctx_b, settings_ctx_a] ∧
    [settings_ctx_a, settings_ctx_b].Pairwise branch_context.disjoint ∧
    (branch_context.merge [settings_ctx_a, settings_ctx_b]).settings
      ≠ (branch_context.merge [settings_ctx_b, settings_ctx_a]).settings := by
  refine ⟨List.Perm.swap _ _ _, ?_, ?_⟩
  · simp [branch_context.disjoint, settings_ctx_a, settings_ctx_b, amap_keys]
  · have h1 : (branch_context.merge [settings_ctx_a, settings_ctx_b]).settings
        = Json.obj [("a", Json.num 2)] := rfl
    have h2 : (branch_context.merge [settings_ctx_b, settings_ctx_a]).settings
        = Json.obj [("a", Json.obj [("b", Json.num 1)])] := rfl
    rw [h1, h2]
    simp

/-! ## What the merge keeps -/

theorem foldl_orElse_eq_none (xs : List (Option String)) (x : Option String) :
    xs.foldl (fun a b => a.orElse (fun _ => b)) x = none ↔ x = none ∧ ∀ y ∈ xs, y = none := by
  induction xs generalizing x with
  | nil => simp
  | cons y rest ih =>
    rw [List.foldl_cons, ih]
    cases x <;> cases y <;> simp

theorem foldl_rank_greater_spec (xs : List (Option Int)) (x : Option Int) (r : Int)
    (h : xs.foldl rank_greater x = some r) :
    (x = some r ∨ some r ∈ xs) ∧ (∀ a, x = some a → a.natAbs ≤ r.natAbs) ∧
      (∀ a, some a ∈ xs → a.natAbs ≤ r.natAbs) := by
  induction xs generalizing x with
  | nil =>
    simp only [List.foldl_nil] at h
    subst h
    simp
  | cons y rest ih =>
    rw [List.foldl_cons] at h
    obtain ⟨h1, h2, h3⟩ := ih (rank_greater x y) h
    cases x with
    | none =>
      rw [rank_greater_none_left] at h1 h2
      refine ⟨?_, ?_, ?_⟩
      · rcases h1 with h1 | h1
        · exact Or.inr (by simp [h1])
        · exact Or.inr (List.mem_cons_of_mem _ h1)
      · intro a ha
        cases ha
      · intro a ha
        rcases List.mem_cons.mp ha with ha | ha
        · exact h2 a ha.symm
        · exact h3 a ha
    | some b =>
      cases y with
      | none =>
        simp only [rank_greater] at h1 h2
        refine ⟨?_, h2, ?_⟩
        · rcases h1 with h1 | h1
          · exact Or.inl h1
          · exact Or.inr (List.mem_cons_of_mem _ h1)
        · intro a ha
          rcases List.mem_cons.mp ha with ha | ha
          · cases ha
          · exact h3 a ha
      | some c =>
        simp only [rank_greater] at h1 h2
        have h4 := h2 _ rfl
        refine ⟨?_, ?_, ?_⟩
        · rcases h1 with h1 | h1
          · by_cases hc : c.natAbs > b.natAbs
            · rw [if_pos hc] at h1
              exact Or.inr (by simp [h1])
            · rw [if_neg hc] at h1
              exact Or.inl h1
          · exact Or.inr (List.mem_cons_of_mem _ h1)
        · intro a ha
          injection ha with ha
          subst ha
          split_ifs at h4 <;> omega
        · intro a ha
          rcases List.mem_cons.mp ha with ha | ha
          · injection ha with ha
            subst ha
            split_ifs at h4 <;> omega
          · exact h3 a ha

theorem foldl_rank_greater_eq_none (xs : List (Option Int)) (x : Option Int) :
    xs.foldl rank_greater x = none ↔ x = none ∧ ∀ y ∈ xs, y = none := by
  induction xs generalizing x with
  | nil => simp
  | cons y rest ih =>
    rw [List.foldl_cons, ih]
    cases x <;> cases y <;> simp [rank_greater]

theorem member_trip_eq_none (ms : List (String × member)) (h : String) :
    member_trip ms h = none ↔ h ∉ amap_keys ms := by
  rw [← amap_find_eq_none]
  unfold member_trip
  cases amap_find ms h <;> simp

/-- For input states whose maps have distinct keys and whose ranks are `int`
values other than `INT_MIN`, the member ids of the merged state are exactly
those of the inputs, and whenever some input gives a member a rank for a role
name, the merged rank of that member for that name is the rank some input
gives, and no input gives one of greater absolute value. -/
theorem merge_members_union_max (cs : List branch_context) (hwf : ∀ c ∈ cs, c.wf)
    (hr : ∀ c ∈ cs, c.ranks_in_range) :
    (∀ hash, hash ∈ amap_keys (branch_context.merge cs).members
        ↔ ∃ c ∈ cs, hash ∈ amap_keys c.members) ∧
    (∀ hash name, (∃ c ∈ cs, ∃ r0, member_rank c.members hash name = some r0) →
      ∃ r, member_rank (branch_context.merge cs).members hash name = some r ∧
        (∃ c ∈ cs, member_rank c.members hash name = some r) ∧
        ∀ c ∈ cs, ∀ r', member_rank c.members hash name = some r' →
          r'.natAbs ≤ r.natAbs) := by
  refine ⟨?_, ?_⟩
  · intro hash
    have h1 := member_trip_eq_none (branch_context.merge cs).members hash
    rw [merge_trip cs hash hwf, foldl_orElse_eq_none] at h1
    constructor
    · intro hin
      by_contra hno
      apply h1.mp ?_ hin
      refine ⟨rfl, ?_⟩
      intro y hy
      obtain ⟨c, hc, rfl⟩ := List.mem_map.mp hy
      rw [member_trip_eq_none]
      intro hk
      exact hno ⟨c, hc, hk⟩
    · rintro ⟨c, hc, hk⟩
      by_contra hnot
      have := (h1.mpr hnot).2 (member_trip c.members hash) (List.mem_map_of_mem _ hc)
      exact (member_trip_eq_none c.members hash).mp this hk
  · rintro hash name ⟨c0, hc0, r0, hr0⟩
    have hrn : ∀ c ∈ cs, rank_in_range (member_rank c.members hash name) :=
      fun c hc => member_rank_in_range c (hr c hc) hash name
    cases hres : member_rank (branch_context.merge cs).members hash name with
    | none =>
      rw [merge_rank cs hash name hwf hrn, foldl_rank_greater_eq_none] at hres
      have := hres.2 _ (List.mem_map_of_mem (fun c => member_rank c.members hash name) hc0)
      rw [hr0] at this
      cases this
    | some r =>
      refine ⟨r, rfl, ?_, ?_⟩
      · rw [merge_rank cs hash name hwf hrn] at hres
        rcases (foldl_rank_greater_spec _ none r hres).1 with h1 | h1
        · cases h1
        · obtain ⟨c, hc, hcr⟩ := List.mem_map.mp h1
          exact ⟨c, hc, hcr⟩
      · intro c hc r' hr'
        rw [merge_rank cs hash name hwf hrn] at hres
        apply (foldl_rank_greater_spec _ none r hres).2.2 r'
        rw [← hr']
        exact List.mem_map_of_mem (fun c => member_rank c.members hash name) hc

/-- The sample state and its later version, with the ranks 1 and -2 of `u1`
for `mod`: the merged state has the member `u1`, and its rank for `mod` is one
of the two, of greatest absolute value. -/
theorem merge_members_union_max_sample :
    ("u1" ∈ amap_keys (branch_context.merge [sample_ctx, sample_ctx_later]).members
      ↔ ∃ c ∈ [sample_ctx, sample_ctx_later], "u1" ∈ amap_keys c.members) ∧
    ∃ r, member_rank (branch_context.merge [sample_ctx, sample_ctx_later]).members "u1" "mod"
        = some r ∧
      (∃ c ∈ [sample_ctx, sample_ctx_later], member_rank c.members "u1" "mod" = some r) ∧
      ∀ c ∈ [sample_ctx, sample_ctx_later], ∀ r', member_rank c.members "u1" "mod" = some r' →
        r'.natAbs ≤ r.natAbs :=
  have hwf := forall_mem_pair branch_context.wf sample_ctx sample_ctx_later sample_ctx_wf
    sample_ctx_later_wf
  have hr := forall_mem_pair branch_context.ranks_in_range sample_ctx sample_ctx_later
    sample_ctx_in_range sample_ctx_later_in_range
  ⟨(merge_members_union_max [sample_ctx, sample_ctx_later] hwf hr).1 "u1",
    (merge_members_union_max [sample_ctx, sample_ctx_later] hwf hr).2 "u1" "mod"
      ⟨sample_ctx, List.mem_cons_self _ _, 1, rfl⟩⟩

/-- C5, the code at the failing input: the member `u` has rank 1 for `n` in
one input and rank `INT_MIN = -2147483648` in the other. Both inputs have
well-formed maps; in either order the merged rank is 1, although `INT_MIN` has
the greater absolute value. -/
theorem merge_keeps_lesser_rank_at_int_min :
    rank_one_ctx.wf ∧ int_min_ctx.wf ∧
    member_rank rank_one_ctx.members "u" "n" = some 1 ∧
    member_rank int_min_ctx.members "u" "n" = some (-2147483648) ∧
    std_abs (-2147483648) = -2147483648 ∧
    member_rank (branch_context.merge [rank_one_ctx, int_min_ctx]).members "u" "n" = some 1 ∧
    member_rank (branch_context.merge [int_min_ctx, rank_one_ctx]).members "u" "n" = some 1 ∧
    (1 : Int).natAbs < (-2147483648 : Int).natAbs := by
  refine ⟨?_, ?_, rfl, rfl, rfl, rfl, rfl, by decide⟩
  · simp [branch_context.wf, rank_one_ctx, amap_wf, amap_keys]
  · simp [branch_context.wf, int_min_ctx, amap_wf, amap_keys]

/-- With the rank `INT_MIN` the grouping matters: the member `u` has rank
`INT_MIN` for `n` in A and in C and no rank in B; the flat merge `[A, B, C]`
ends with `INT_MIN`, the grouping `[A, [B, C]]` with 0. -/
theorem merge_grouping_int_min_differ :
    member_rank (branch_context.merge [int_min_ctx, no_rank_ctx, int_min_ctx]).members "u" "n"
      = some (-2147483648) ∧
    member_rank
        (branch_context.merge
          [int_min_ctx, branch_context.merge [no_rank_ctx, int_min_ctx]]).members "u" "n"
      = some 0 := by
  refine ⟨?_, ?_⟩ <;> rfl

/-! ## Roles of version 0 -/

/-- C6, the code at the failing input: the only candidate for the role
`helper` has version 0, primacy 7 and capability 1; the merged entry is the
value-initialised pair, of primacy 0 and without capability. -/
theorem merge_drops_version_zero_role :
    amap_find fresh_role_ctx.roles "helper"
      = some ({ features := fun i => decide (i = 1), primacy := 7 }, 0) ∧
    amap_find (branch_context.merge [fresh_role_ctx]).roles "helper" = some role_pair_zero ∧
    (amap_at role_pair_zero (branch_context.merge [fresh_role_ctx]).roles "helper").1.primacy = 0 ∧
    (amap_at role_pair_zero fresh_role_ctx.roles "helper").1.primacy = 7 := by
  refine ⟨?_, ?_, ?_, ?_⟩ <;> rfl

/-! ## Held roles and minimum primacy -/

/-- C11 (as amended): `has_feature` returns true exactly when the member has a
role entry of non-negative rank (zero included) whose role, read with
`roles[name]`, has the capability bit set; an entry of negative rank never
grants a capability. -/
theorem has_feature_iff (ctx : branch_context) (target : member) (index : Fin 6) :
    (ctx.has_feature target index).1 = true ↔
      ∃ e ∈ target.roles_ranks, 0 ≤ e.2 ∧
        (amap_at role_pair_zero ctx.roles e.1).1.features index = true := by
  rw [has_feature_fst]
  unfold feature_held
  rw [List.any_eq_true]
  constructor
  · rintro ⟨e, he, h⟩
    simp only [Bool.and_eq_true, decide_eq_true_eq] at h
    exact ⟨e, he, h.1, h.2⟩
  · rintro ⟨e, he, h1, h2⟩
    exact ⟨e, he, by simp [h1, h2]⟩

/-- C11, counterexample: `u1` has rank 0 for `quiet`, the only role with
capability 0, and `has_feature` returns true although no entry of strictly
positive rank names a role with that capability. -/
theorem has_feature_zero_rank :
    ¬ ((zero_rank_ctx.has_feature zero_rank_member 0).1 = true ↔
        ∃ e ∈ zero_rank_member.roles_ranks, 0 < e.2 ∧
          (amap_at role_pair_zero zero_rank_ctx.roles e.1).1.features 0 = true) := by
  intro h
  have h1 : (zero_rank_ctx.has_feature zero_rank_member 0).1 = true := rfl
  obtain ⟨e, he, hpos, hbit⟩ := h.mp h1
  simp only [zero_rank_member, List.mem_cons, List.mem_singleton, List.not_mem_nil,
    or_false] at he
  rcases he with rfl | rfl
  · exact absurd hpos (by decide)
  · exact absurd hbit (by decide)

theorem least_primacy_spec (roles : List (String × (role × Int)))
    (ranks : List (String × Int)) (b : Nat) :
    least_primacy roles ranks b ≤ b ∧
    (∀ e ∈ ranks, 0 ≤ e.2 →
      least_primacy roles ranks b ≤ (amap_at role_pair_zero roles e.1).1.primacy % 2 ^ 32) ∧
    (least_primacy roles ranks b = b ∨
      ∃ e ∈ ranks, 0 ≤ e.2 ∧
        least_primacy roles ranks b = (amap_at role_pair_zero roles e.1).1.primacy % 2 ^ 32) := by
  induction ranks generalizing b with
  | nil => simp [least_primacy]
  | cons x rest ih =>
    have hstep : least_primacy roles (x :: rest) b
        = least_primacy roles rest
            (if x.2 < 0 then b
              else if (amap_at role_pair_zero roles x.1).1.primacy % 2 ^ 32 < b then
                (amap_at role_pair_zero roles x.1).1.primacy % 2 ^ 32
              else b) := by
      simp [least_primacy]
    rw [hstep]
    have hm1 : (if x.2 < 0 then b
        else if (amap_at role_pair_zero roles x.1).1.primacy % 2 ^ 32 < b then
          (amap_at role_pair_zero roles x.1).1.primacy % 2 ^ 32
        else b) ≤ b := by
      split_ifs <;> omega
    have hm2 : 0 ≤ x.2 → (if x.2 < 0 then b
        else if (amap_at role_pair_zero roles x.1).1.primacy % 2 ^ 32 < b then
          (amap_at role_pair_zero roles x.1).1.primacy % 2 ^ 32
        else b) ≤ (amap_at role_pair_zero roles x.1).1.primacy % 2 ^ 32 := by
      intro hx
      split_ifs <;> omega
    have hm3 : (if x.2 < 0 then b
        else if (amap_at role_pair_zero roles x.1).1.primacy % 2 ^ 32 < b then
          (amap_at role_pair_zero roles x.1).1.primacy % 2 ^ 32
        else b) = b ∨ (0 ≤ x.2 ∧ (if x.2 < 0 then b
        else if (amap_at role_pair_zero roles x.1).1.primacy % 2 ^ 32 < b then
          (amap_at role_pair_zero roles x.1).1.primacy % 2 ^ 32
        else b) = (amap_at role_pair_zero roles x.1).1.primacy % 2 ^ 32) := by
      split_ifs
      · exact Or.inl rfl
      · exact Or.inr ⟨by omega, rfl⟩
      · exact Or.inl rfl
    generalize (if x.2 < 0 then b
        else if (amap_at role_pair_zero roles x.1).1.primacy % 2 ^ 32 < b then
          (amap_at role_pair_zero roles x.1).1.primacy % 2 ^ 32
        else b) = m at hm1 hm2 hm3 ⊢
    obtain ⟨h1, h2, h3⟩ := ih m
    refine ⟨le_trans h1 hm1, ?_, ?_⟩
    · intro e he hpos
      rcases List.mem_cons.mp he with rfl | he
      · exact le_trans h1 (hm2 hpos)
      · exact h2 e he hpos
    · rcases h3 with h3 | ⟨e, he, hpos, h3⟩
      · rcases hm3 with hm3 | ⟨hx, hm3⟩
        · exact Or.inl (h3.trans hm3)
        · exact Or.inr ⟨x, List.mem_cons_self _ _, hx, h3.trans hm3⟩
      · exact Or.inr ⟨e, List.mem_cons_of_mem _ he, hpos, h3⟩

/-- C12 (as amended): the result of `min_primacy` is never larger than the
primacy (read as `unsigned int` with `roles[name]`) of any role for which the
member has a non-negative rank, and when some such role has a primacy of at
most `INT_MAX` the result is the primacy of one of them, hence the least. -/
theorem min_primacy_least (ctx : branch_context) (target : member) :
    (∀ e ∈ target.roles_ranks, 0 ≤ e.2 →
      (ctx.min_primacy target).1 ≤ (amap_at role_pair_zero ctx.roles e.1).1.primacy % 2 ^ 32) ∧
    ((∃ e ∈ target.roles_ranks, 0 ≤ e.2 ∧
        (amap_at role_pair_zero ctx.roles e.1).1.primacy ≤ 2 ^ 31 - 1) →
      ∃ e ∈ target.roles_ranks, 0 ≤ e.2 ∧
        (ctx.min_primacy target).1
          = (amap_at role_pair_zero ctx.roles e.1).1.primacy % 2 ^ 32) := by
  rw [min_primacy_fst]
  obtain ⟨h1, h2, h3⟩ := least_primacy_spec ctx.roles target.roles_ranks (2 ^ 31 - 1)
  refine ⟨h2, ?_⟩
  rintro ⟨e0, he0, hpos0, hsmall⟩
  rcases h3 with h3 | h3
  · refine ⟨e0, he0, hpos0, ?_⟩
    have hle := h2 e0 he0 hpos0
    have hmod : (amap_at role_pair_zero ctx.roles e0.1).1.primacy % 2 ^ 32
        ≤ (amap_at role_pair_zero ctx.roles e0.1).1.primacy := Nat.mod_le _ _
    omega
  · exact h3

/-- C12, witness: in `zero_rank_ctx` the member holds `quiet` (primacy 1, rank
0) and `mod` (primacy 5, rank 1); the result is the primacy of one of them and
at most each. -/
theorem min_primacy_least_witness :
    (∃ e ∈ zero_rank_member.roles_ranks, 0 ≤ e.2 ∧
        (amap_at role_pair_zero zero_rank_ctx.roles e.1).1.primacy ≤ 2 ^ 31 - 1) ∧
    (∃ e ∈ zero_rank_member.roles_ranks, 0 ≤ e.2 ∧
        (zero_rank_ctx.min_primacy zero_rank_member).1
          = (amap_at role_pair_zero zero_rank_ctx.roles e.1).1.primacy % 2 ^ 32) :=
  ⟨⟨("mod", 1), by simp [zero_rank_member], by decide, by decide⟩,
    (min_primacy_least zero_rank_ctx zero_rank_member).2
      ⟨("mod", 1), by simp [zero_rank_member], by decide, by decide⟩⟩

/-- C12, counterexample: the only role `u1` holds with positive rank is `mod`,
of primacy 5, and `min_primacy` returns 1, the primacy of `quiet`, held with
rank 0. -/
theorem min_primacy_zero_rank :
    (zero_rank_ctx.min_primacy zero_rank_member).1 = 1 ∧
    ¬ ∃ e ∈ zero_rank_member.roles_ranks, 0 < e.2 ∧
        (zero_rank_ctx.min_primacy zero_rank_member).1
          = (amap_at role_pair_zero zero_rank_ctx.roles e.1).1.primacy := by
  refine ⟨rfl, ?_⟩
  rintro ⟨e, he, hpos, hval⟩
  have h1 : (zero_rank_ctx.min_primacy zero_rank_member).1 = 1 := rfl
  rw [h1] at hval
  simp only [zero_rank_member, List.mem_cons, List.mem_singleton, List.not_mem_nil,
    or_false] at he
  rcases he with rfl | rfl
  · exact absurd hpos (by decide)
  · exact absurd hval (by decide)

/-! ## Key rotation -/

theorem rem_relevant_members_some (d : claf_payload) (ms : List (String × member))
    (rel : List String) (h : rem_relevant_members d ms = some rel) :
    rel = (amap_keys ms).filter (fun user_trip => decide (user_trip ∉ d.rms)) ∧
    ∀ u ∈ rel, (amap_find d.nsk u).isSome = true := by
  induction ms generalizing rel with
  | nil =>
    simp only [rem_relevant_members, Option.some.injEq] at h
    subst h
    simp [amap_keys]
  | cons e rest ih =>
    obtain ⟨user_trip, m⟩ := e
    by_cases hrm : user_trip ∈ d.rms
    · simp only [rem_relevant_members, hrm, if_true] at h
      obtain ⟨h1, h2⟩ := ih rel h
      refine ⟨?_, h2⟩
      simp only [amap_keys] at h1
      simp [amap_keys, hrm, h1]
    · simp only [rem_relevant_members, hrm, if_false] at h
      by_cases hnsk : (amap_find d.nsk user_trip).isNone = true
      · simp [hnsk] at h
      · simp only [hnsk, Bool.false_eq_true, if_false, Option.map_eq_some'] at h
        obtain ⟨r, hr, rfl⟩ := h
        obtain ⟨h1, h2⟩ := ih r hr
        constructor
        · simp only [amap_keys] at h1
          simp [amap_keys, hrm, h1]
        · intro u hu
          rcases List.mem_cons.mp hu with rfl | hu
          · cases hf : amap_find d.nsk u with
            | none => simp [hf] at hnsk
            | some v => rfl
          · exact h2 u hu

theorem rem_reencrypted_index (env : Externals) (srv : Server) (k key u : String) :
    rem_reencrypted env
        { srv with known_users := amap_index user.zero srv.known_users k } key u
      = rem_reencrypted env srv key u := by
  simp [rem_reencrypted, amap_at_index]

theorem rem_check_ciphertexts_true (env : Externals) (d : claf_payload) (key : String)
    (ms : List (String × member)) (srv : Server)
    (h : (rem_check_ciphertexts env d key srv ms).1 = true) :
    ∀ u ∈ amap_keys ms, amap_find d.nsk u = some (rem_reencrypted env srv key u) := by
  induction ms generalizing srv with
  | nil => intro u hu; simp [amap_keys] at hu
  | cons e rest ih =>
    obtain ⟨user_trip, m⟩ := e
    by_cases hne : some (env.b64_encode (env.RSA_encrypt
        (env.b64_decode (amap_at user.zero srv.known_users user_trip).pub_keys.RSA_key)
        (env.b64_decode key))) ≠ amap_find d.nsk user_trip
    · simp [rem_check_ciphertexts, hne] at h
    · simp only [rem_check_ciphertexts, hne, if_false] at h
      have hrest := ih _ h
      intro u hu
      simp only [amap_keys, List.map_cons, List.mem_cons] at hu
      rcases hu with rfl | hu
      · simp only [ne_eq, not_not] at hne
        exact hne.symm
      · rw [← rem_reencrypted_index env srv user_trip key u]
        exact hrest u (by simpa [amap_keys] using hu)

theorem apply_rem_cases (env : Externals) (srv : Server) (ctx : branch_context)
    (extra : List (String × Json)) (author_member : member) (d : claf_payload) :
    ((apply_rem env srv ctx extra author_member d).accepted = false →
      (apply_rem env srv ctx extra author_member d).extra = extra) ∧
    ((apply_rem env srv ctx extra author_member d).accepted = true →
      (ctx.has_feature author_member 2).1 = true ∧ rem_key_rotation_valid env srv ctx d) := by
  unfold apply_rem
  by_cases h1 : (ctx.has_feature author_member 2).1 = true
  · simp only [h1, Bool.not_true, Bool.false_eq_true, if_false]
    cases hrel : rem_relevant_members d (ctx.has_feature author_member 2).2.members with
    | none => simp
    | some rel =>
      rw [has_feature_members] at hrel
      obtain ⟨hr1, hr2⟩ := rem_relevant_members_some d ctx.members rel hrel
      simp only []
      by_cases h2 : srv.luser.u_trip ∉ rel
      · simp [h2]
      · simp only [h2, if_false]
        by_cases h3 : env.calc_hash
            (env.RSA_decrypt (env.b64_decode srv.luser.pri_keys.RSA_key)
              (env.b64_decode ((amap_find d.nsk srv.luser.u_trip).getD ""))) ≠ d.nst
        · simp [h3]
        · simp only [h3, if_false]
          cases h4 : (rem_check_ciphertexts env d
              (env.RSA_decrypt (env.b64_decode srv.luser.pri_keys.RSA_key)
                (env.b64_decode ((amap_find d.nsk srv.luser.u_trip).getD "")))
              srv (ctx.has_feature author_member 2).2.members).1 with
          | false => simp
          | true =>
            simp only [Bool.not_true, Bool.false_eq_true, if_false, true_and]
            refine ⟨by simp, fun _ => ⟨?_, ?_, ?_, ?_⟩⟩
            · unfold rem_remaining
              rw [← hr1]
              simpa using h2
            · unfold rem_remaining
              rw [← hr1]
              exact hr2
            · simpa [rem_decrypted_key] using h3
            · intro u hu
              unfold rem_remaining at hu
              rw [has_feature_members] at h4
              exact rem_check_ciphertexts_true env d _ ctx.members srv h4 u
                (List.mem_filter.mp hu).1
  · simp [h1]

theorem rem_valid_of_members (env : Externals) (srv : Server) (ctx ctx' : branch_context)
    (d : claf_payload) (k : String) (hm : ctx'.members = ctx.members)
    (h : rem_key_rotation_valid env
      { srv with known_users := amap_index user.zero srv.known_users k } ctx' d) :
    rem_key_rotation_valid env srv ctx d := by
  unfold rem_key_rotation_valid rem_remaining at h ⊢
  rw [hm] at h
  simp only [rem_reencrypted_index] at h
  exact h

theorem amap_index_present {V : Type} (d : V) (m : List (String × V)) (k : String) (v : V)
    (h : amap_find m k = some v) : amap_index d m k = m := by
  simp [amap_index, h]

/-- C13: a message `a`/`rem` is rejected, and the side-channel document gets no
new key, whenever one of the four conditions of a valid key rotation fails:
the local user is a remaining member; every remaining member has an entry in
`nsk`; the fingerprint of the key the local user decrypts equals `nst`; every
remaining member's entry is the re-encryption of that key under the member's
public encryption key. -/
theorem apply_data_key_rotation_invalid (env : Externals) (srv : Server)
    (ctx : branch_context) (extra : List (String × Json)) (claf_data : claf)
    (content signature content_hash : String)
    (hst : claf_data.st = "a") (ht : claf_data.t = "rem")
    (hbad : ¬ rem_key_rotation_valid env srv ctx claf_data.d) :
    (srv.apply_data env ctx extra claf_data content signature content_hash).accepted = false ∧
    (srv.apply_data env ctx extra claf_data content signature content_hash).extra = extra := by
  have hrem : ∀ k : String, (apply_rem env
        { srv with known_users := amap_index user.zero srv.known_users k }
        (({ ctx with members := amap_index member.zero ctx.members claf_data.a } :
          branch_context).min_primacy (amap_at member.zero ctx.members claf_data.a)).2
        extra (amap_at member.zero ctx.members claf_data.a) claf_data.d).accepted = false := by
    intro k
    cases hacc : (apply_rem env
        { srv with known_users := amap_index user.zero srv.known_users k }
        (({ ctx with members := amap_index member.zero ctx.members claf_data.a } :
          branch_context).min_primacy (amap_at member.zero ctx.members claf_data.a)).2
        extra (amap_at member.zero ctx.members claf_data.a) claf_data.d).accepted with
    | false => rfl
    | true =>
      exfalso
      obtain ⟨hfeat, hvalid⟩ := (apply_rem_cases _ _ _ _ _ _).2 hacc
      cases hfind : amap_find ctx.members claf_data.a with
      | none =>
        rw [has_feature_fst] at hfeat
        simp [amap_at, hfind, member.zero, feature_held] at hfeat
      | some m =>
        apply hbad
        refine rem_valid_of_members env srv ctx _ claf_data.d k ?_ hvalid
        rw [min_primacy_members]
        exact amap_index_present _ _ _ m hfind
  have hextra := fun k => (apply_rem_cases _ _ _ _ _ _).1 (hrem k)
  unfold Server.apply_data
  simp only [hst, ht]
  split_ifs <;> first | exact ⟨rfl, rfl⟩ | exact ⟨hrem _, hextra _⟩ | simp_all

/-- C13, witness: `u1` may remove members and is the local user, but the
message supplies no entry for `u1` in the table of new keys. -/
theorem apply_data_key_rotation_invalid_witness :
    ¬ rem_key_rotation_valid sample_env sample_srv muted_ctx rem_without_keys.d ∧
    (sample_srv.apply_data sample_env muted_ctx [] rem_without_keys "body" "sig" "h0").accepted
      = false ∧
    (sample_srv.apply_data sample_env muted_ctx [] rem_without_keys "body" "sig" "h0").extra
      = [] :=
  have hbad : ¬ rem_key_rotation_valid sample_env sample_srv muted_ctx rem_without_keys.d :=
    fun h => by
      have h2 := h.2.1 "u1" (by decide)
      exact absurd h2 (by decide)
  ⟨hbad, apply_data_key_rotation_invalid sample_env sample_srv muted_ctx [] rem_without_keys
    "body" "sig" "h0" rfl rfl hbad⟩

/-! ## `evaluate_blocks` on concrete batches -/

/-- C15, the code at the failing input: the requester holds `[g, b1, b2a]`,
the responder `[g, b1, b2b]`, the batch size is 2. Both replies carry the flag
`ABSENT/V`, and after the second the requester's chain is
`[g, b1, b2a, b2b]`. -/
theorem fork_is_linearised :
    fork_two_exchanges.map
        (fun r => (r.1.flag, r.2.1.flag, r.2.1.i, r.2.2.requester.get_chain))
      = some ("ABSENT/V", "ABSENT/V", some 0, [blk_g, blk_b1, blk_b2a, blk_b2b]) := by
  rfl

/-- C16, the code at the failing input: with `b2b` buffered, the block `g` at
index 0 does not link to it; the reply flag is `ABSENT/V`, not `ABSENT/NV`,
and the buffer is committed to the local chain. -/
theorem evaluate_blocks_bad_link_commits :
    (evaluate_blocks accept_env (conn_with [blk_g, blk_b1, blk_b2a] [blk_b2b])
        [(0, blk_g)]).1.flag = "ABSENT/V" ∧
    (evaluate_blocks accept_env (conn_with [blk_g, blk_b1, blk_b2a] [blk_b2b])
        [(0, blk_g)]).2.get_chain = [blk_g, blk_b1, blk_b2a, blk_b2b] := by
  refine ⟨?_, ?_⟩ <;> rfl

/-- C17, the code at the failing input: the local chain is `[g, b1]`, `b1x` is
buffered and the block `g` at index 0 is known and not the tip; the reply flag
is `ABSENT/V`, not `PRESENT/NT`, and the local chain becomes `[g, b1, b1x]`. -/
theorem evaluate_blocks_known_not_tip_commits :
    (evaluate_blocks accept_env (conn_with [blk_g, blk_b1] [blk_b1x]) [(0, blk_g)]).1.flag
      = "ABSENT/V" ∧
    (evaluate_blocks accept_env (conn_with [blk_g, blk_b1] [blk_b1x]) [(0, blk_g)]).2.get_chain
      = [blk_g, blk_b1, blk_b1x] := by
  refine ⟨?_, ?_⟩ <;> rfl

/-- C18, the code at the failing input: no block passes the acceptance check,
`b1x` is buffered and a block arrives at index 0; it is neither the local tip
nor an unseen valid block, yet the local chain `[g, b1]` becomes
`[g, b1, b1x]`. -/
theorem evaluate_blocks_rejected_block_commits :
    reject_env.verify_block [blk_g, blk_b1] (0, blk_g) 0 = false ∧
    (evaluate_blocks reject_env (conn_with [blk_g, blk_b1] [blk_b1x]) [(0, blk_g)]).1.flag
      = "ABSENT/V" ∧
    (evaluate_blocks reject_env (conn_with [blk_g, blk_b1] [blk_b1x]) [(0, blk_g)]).2.get_chain
      = [blk_g, blk_b1, blk_b1x] := by
  refine ⟨?_, ?_, ?_⟩ <;> rfl

/-! ## Serving a batch -/

theorem size_t_sub_small (a b : Nat) (ha : a < 2 ^ 64) (hb : b ≤ a) :
    size_t_sub a b = a - b := by
  unfold size_t_sub
  have h1 : a % 2 ^ 64 = a := Nat.mod_eq_of_lt ha
  have h2 : b % 2 ^ 64 = b := Nat.mod_eq_of_lt (by omega)
  rw [h1, h2]
  have h3 : a + 2 ^ 64 - b = (a - b) + 2 ^ 64 := by omega
  rw [h3, Nat.add_mod_right]
  exact Nat.mod_eq_of_lt (by omega)

theorem blocks_down_eq_map (chain : List block) (c n : Nat) :
    blocks_down chain c n
      = (List.range n).map (fun j => (c - 1 - j, chain.getD (c - 1 - j) [])) := by
  induction n generalizing c with
  | zero => rfl
  | succ n ih =>
    rw [blocks_down, ih, List.range_succ_eq_map, List.map_cons, List.map_map]
    congr 1
    apply List.map_congr_left
    intro j _
    have h : c - 1 - (j + 1) = c - 1 - 1 - j := by omega
    simp [Function.comp, h]

theorem send_blocks_loop_eq (chain : List block) (c : Nat) (hle : c ≤ chain.length)
    (hlen : chain.length < 2 ^ 64) (n backi : Nat) (hb : backi < c) :
    send_blocks_loop chain c n backi
      = some (blocks_down chain (c - backi) (min n (c - backi))) := by
  induction n generalizing backi with
  | zero => simp [send_blocks_loop, blocks_down]
  | succ n ih =>
    have hw : size_t_sub (size_t_sub c 1) backi = c - backi - 1 := by
      rw [size_t_sub_small c 1 (by omega) (by omega),
        size_t_sub_small (c - 1) backi (by omega) (by omega)]
      omega
    have hget : chain[c - backi - 1]? = some (chain.getD (c - backi - 1) []) := by
      have hlt : c - backi - 1 < chain.length := by omega
      simp [List.getD, List.getElem?_eq_getElem hlt]
    rw [send_blocks_loop]
    simp only [hw, hget]
    by_cases h0 : c - backi - 1 = 0
    · have h1 : c - backi = 1 := by omega
      have hmin : min (n + 1) (c - backi) = 1 := by omega
      rw [if_pos h0, hmin, h1]
      simp [blocks_down]
    · have hmin : min (n + 1) (c - backi) = min n (c - (backi + 1)) + 1 := by omega
      rw [if_neg h0, ih (backi + 1) (by omega), hmin, blocks_down]
      have h2 : c - (backi + 1) = c - backi - 1 := by omega
      simp [h2]

/-- C19: with a cursor `c`, `0 < c <= length of the chain`, and any batch size
`k` (in particular `k >= 1`), `send_blocks` returns the flag `BLOCKS` with the `min k c` entries of
indices `c-1`, `c-2`, ... in this order, each with the block of the chain at
that index, and sets the cursor to `c - k` when `c > k` and to 0 otherwise;
and `begin_sending_blocks` first (lines 71-73, before anything else it does)
sets the cursor to the length of the chain of the channel it is given. -/
theorem send_blocks_batch (env : NodeExternals) (conn : Conn) (chain : String) (k : Nat)
    (hc : 0 < conn.message_context.lastbi)
    (hle : conn.message_context.lastbi ≤ conn.get_chain.length)
    (hlen : conn.get_chain.length < 2 ^ 64) :
    send_blocks conn
      = some
        ({ flag := "BLOCKS"
           blocks := (List.range (min conn.message_context.k conn.message_context.lastbi)).map
             (fun j => (conn.message_context.lastbi - 1 - j,
               conn.get_chain.getD (conn.message_context.lastbi - 1 - j) [])) },
         { conn with
           message_context :=
             { conn.message_context with
               lastbi :=
                 if conn.message_context.lastbi > conn.message_context.k then
                   conn.message_context.lastbi - conn.message_context.k
                 else 0 } }) ∧
    (begin_sending_blocks env conn chain k
        = (begin_threshold env (begin_cursor conn chain k)).bind send_blocks ∧
      (begin_cursor conn chain k).message_context.lastbi
        = (amap_at [] conn.parent_chains chain).length ∧
      (begin_cursor conn chain k).get_chain = amap_at [] conn.parent_chains chain ∧
      (begin_cursor conn chain k).message_context.chain_trip = chain ∧
      (begin_cursor conn chain k).message_context.k = k) := by
  constructor
  · unfold send_blocks
    rw [send_blocks_loop_eq conn.get_chain conn.message_context.lastbi hle hlen
      conn.message_context.k 0 hc]
    simp only [Nat.sub_zero]
    rw [blocks_down_eq_map]
  · exact ⟨rfl, rfl, rfl, rfl, rfl⟩

/-- C19, witness: the chain `[g, b1, b2]` with the cursor at 3 and batch size
2 is served as the entries 2 and 1, and the cursor becomes 1. -/
theorem send_blocks_batch_witness :
    send_blocks
        { message_context :=
            { chain_trip := "ch", lastbi := 3, k := 2, pow_min := 0, wchain := [] }
          parent_chains := [("ch", [blk_g, blk_b1, blk_b2])] }
      = some
        ({ flag := "BLOCKS", blocks := [(2, blk_b2), (1, blk_b1)] },
         { message_context :=
             { chain_trip := "ch", lastbi := 1, k := 2, pow_min := 0, wchain := [] }
           parent_chains := [("ch", [blk_g, blk_b1, blk_b2])] }) :=
  (send_blocks_batch accept_env
    { message_context :=
        { chain_trip := "ch", lastbi := 3, k := 2, pow_min := 0, wchain := [] }
      parent_chains := [("ch", [blk_g, blk_b1, blk_b2])] }
    "ch" 2 (by decide) (by decide) (by decide)).1

/-! ## What `evaluate_blocks` buffers -/

theorem evaluate_blocks_loop_checked (env : NodeExternals) (pow_min : Nat)
    (chain : List block) (batch : List (Nat × block)) (todo : List (Nat × block))
    (s : eval_state) (hsub : ∀ e ∈ todo, e ∈ batch) :
    ∃ added, (evaluate_blocks_loop env pow_min chain s todo).wchain = s.wchain ++ added ∧
      appended_checked env pow_min chain batch s.wchain added := by
  induction todo generalizing s with
  | nil => exact ⟨[], by simp [evaluate_blocks_loop], trivial⟩
  | cons entry rest ih =>
    rw [evaluate_blocks_loop]
    by_cases h1 : s.wchain ≠ [] ∧
        ¬ (env.verify_block chain entry pow_min = true ∧
            block_field entry.2 2 = block_field (s.wchain.getLastD []) 1)
    · rw [if_pos h1]
      exact ⟨[], by simp, trivial⟩
    · rw [if_neg h1]
      by_cases h2 : entry.1 < chain.length ∧ all_equal (chain.getD entry.1 []) entry.2 = true
      · rw [if_pos h2]
        by_cases h3 : entry.1 = chain.length - 1
        · rw [if_pos h3]
          exact ⟨[], by simp, trivial⟩
        · rw [if_neg h3]
          exact ⟨[], by simp, trivial⟩
      · rw [if_neg h2]
        obtain ⟨added, hw, hchk⟩ :=
          ih { s with i := some entry.1, wchain := s.wchain ++ [entry.2] }
            (fun e he => hsub e (List.mem_cons_of_mem _ he))
        refine ⟨entry.2 :: added, by simpa using hw, ?_, hchk⟩
        intro hne
        have h4 : env.verify_block chain entry pow_min = true ∧
            block_field entry.2 2 = block_field (s.wchain.getLastD []) 1 := by
          by_contra hcon
          exact h1 ⟨hne, hcon⟩
        exact ⟨entry, hsub entry (List.mem_cons_self _ _), rfl, h4.1, h4.2⟩

/-- C20 (as amended): the buffer after `evaluate_blocks` is the buffer before
followed by the appended blocks, and every block appended to a non-empty
buffer is the block of an entry of the batch that passed the acceptance check
against the channel's threshold and whose field 2 matches field 1 of the
block buffered before it; a block appended to the empty buffer was not
checked. -/
theorem evaluate_blocks_buffers_checked (env : NodeExternals) (conn : Conn)
    (blocks : List (Nat × block)) :
    ∃ added,
      (evaluate_blocks env conn blocks).2.message_context.wchain
        = conn.message_context.wchain ++ added ∧
      appended_checked env conn.message_context.pow_min conn.get_chain blocks
        conn.message_context.wchain added := by
  obtain ⟨added, hw, hchk⟩ := evaluate_blocks_loop_checked env conn.message_context.pow_min
    conn.get_chain blocks blocks
    { flag := "ABSENT/V", i := none, wchain := conn.message_context.wchain }
    (fun _ he => he)
  refine ⟨added, ?_, hchk⟩
  unfold evaluate_blocks
  simp only []
  split_ifs <;> simpa [update_chain] using hw

/-- C20, counterexample: no block passes the acceptance check, the buffer is
empty, and the block `b1` of the batch is buffered all the same. -/
theorem evaluate_blocks_first_block_unchecked :
    reject_env.verify_block [blk_g] (1, blk_b1) 0 = false ∧
    (evaluate_blocks reject_env (conn_with [blk_g] []) [(1, blk_b1)]).2.message_context.wchain
      = [blk_b1] := by
  refine ⟨?_, ?_⟩ <;> rfl

/-! ## Catching up -/

theorem all_equal_self (b : block) : all_equal b b = true := by
  simp [all_equal]

theorem getLastD_reverse_drop (R : List block) (c : Nat) (h : c < R.length) :
    ((R.drop c).reverse).getLastD [] = R.getD c [] := by
  rw [List.drop_eq_getElem_cons h]
  simp [List.getD_eq_getElem _ _ h]

theorem reverse_drop_step (R : List block) (c : Nat) (h1 : 1 ≤ c) (h : c ≤ R.length) :
    (R.drop c).reverse ++ [R.getD (c - 1) []] = (R.drop (c - 1)).reverse := by
  have hlt : c - 1 < R.length := by omega
  rw [List.drop_eq_getElem_cons hlt, List.getD_eq_getElem _ _ hlt]
  have : c - 1 + 1 = c := by omega
  simp [this]

theorem evaluate_blocks_loop_down (env : NodeExternals) (p : Nat) (L R : List block)
    (hset : catch_up_setting env p L R) (n c : Nat) (i0 : Option Nat)
    (hLc : L.length ≤ c) (hcR : c ≤ R.length) (hn : n ≤ c) :
    evaluate_blocks_loop env p L
        { flag := "ABSENT/V", i := i0, wchain := (R.drop c).reverse } (blocks_down R c n)
      = if L.length + n ≤ c then
          { flag := "ABSENT/V", i := if n = 0 then i0 else some (c - n),
            wchain := (R.drop (c - n)).reverse }
        else
          { flag := "PRESENT/T", i := some (L.length - 1), wchain := (R.drop L.length).reverse } := by
  obtain ⟨hne, hpre, hlen, hvalid, hlink⟩ := hset
  induction n generalizing c i0 with
  | zero => simp [blocks_down, evaluate_blocks_loop, hLc]
  | succ n ih =>
    have hc1 : 1 ≤ c := by omega
    rw [blocks_down, evaluate_blocks_loop]
    have hcond1 : ¬ ((R.drop c).reverse ≠ [] ∧
        ¬ (env.verify_block L (c - 1, R.getD (c - 1) []) p = true ∧
            block_field (R.getD (c - 1) []) 2
              = block_field (((R.drop c).reverse).getLastD []) 1)) := by
      rintro ⟨hw, hbad⟩
      apply hbad
      have hcl : c < R.length := by
        by_contra hge
        apply hw
        have : R.drop c = [] := List.drop_eq_nil_of_le (by omega)
        simp [this]
      refine ⟨hvalid (c - 1) (by omega), ?_⟩
      rw [getLastD_reverse_drop R c hcl]
      have := hlink (c - 1) (by omega)
      rwa [show c - 1 + 1 = c by omega] at this
    simp only [if_neg hcond1]
    by_cases hLen : c = L.length
    · subst hLen
      have hlt : L.length - 1 < L.length := by
        have : 0 < L.length := List.length_pos.mpr hne
        omega
      have hsame : L.getD (L.length - 1) [] = R.getD (L.length - 1) [] := by
        obtain ⟨S, rfl⟩ := hpre
        rw [List.getD_append _ _ _ _ hlt]
      have hcond2 : L.length - 1 < L.length ∧
          all_equal (L.getD (L.length - 1) []) (R.getD (L.length - 1) []) = true :=
        ⟨hlt, by rw [hsame]; exact all_equal_self _⟩
      have hno : ¬ L.length + (n + 1) ≤ L.length := by omega
      rw [if_pos hcond2, if_pos rfl, if_neg hno]
    · have hcond2 : ¬ (c - 1 < L.length ∧
          all_equal (L.getD (c - 1) []) (R.getD (c - 1) []) = true) := by
        rintro ⟨h, _⟩
        omega
      simp only [if_neg hcond2]
      rw [reverse_drop_step R c hc1 hcR, ih (c - 1) (some (c - 1)) (by omega) (by omega) (by omega)]
      by_cases hle : L.length + n ≤ c - 1
      · have hle2 : L.length + (n + 1) ≤ c := by omega
        rw [if_pos hle, if_pos hle2]
        have h3 : c - 1 - n = c - (n + 1) := by omega
        by_cases hn0 : n = 0
        · subst hn0
          simp
        · simp [hn0, h3]
      · have hle2 : ¬ L.length + (n + 1) ≤ c := by omega
        rw [if_neg hle, if_neg hle2]

theorem amap_at_set_self {V : Type} (d : V) (m : List (String × V)) (k : String) (v : V) :
    amap_at d (amap_set m k v) k = v := by
  simp [amap_at, amap_find_set]

theorem evaluate_blocks_catch_up (env : NodeExternals) (p : Nat) (L R : List block)
    (hset : catch_up_setting env p L R) (conn : Conn) (n c : Nat)
    (hchain : conn.get_chain = L) (hp : conn.message_context.pow_min = p)
    (hw : conn.message_context.wchain = (R.drop c).reverse)
    (hLc : L.length ≤ c) (hcR : c ≤ R.length) (hn : n ≤ c) (hn1 : 1 ≤ n) :
    (L.length + n ≤ c →
      (evaluate_blocks env conn (blocks_down R c n)).1.flag = "ABSENT/V" ∧
      (evaluate_blocks env conn (blocks_down R c n)).2.get_chain = L ∧
      (evaluate_blocks env conn (blocks_down R c n)).2.message_context.pow_min = p ∧
      (evaluate_blocks env conn (blocks_down R c n)).2.message_context.wchain
        = (R.drop (c - n)).reverse) ∧
    (c < L.length + n →
      (evaluate_blocks env conn (blocks_down R c n)).1.flag = "PRESENT/T" ∧
      (evaluate_blocks env conn (blocks_down R c n)).2.get_chain = R) := by
  have hloop := evaluate_blocks_loop_down env p L R hset n c none hLc hcR hn
  have hLpos : 0 < L.length := List.length_pos.mpr hset.1
  have hn0 : ¬ n = 0 := by omega
  constructor
  · intro hle
    rw [if_pos hle] at hloop
    have hi : ¬ (some (c - n) = some 0) := by
      intro h
      injection h with h
      omega
    unfold evaluate_blocks
    simp only [hchain, hp, hw, hloop, hn0, if_false, hi, and_false, or_false]
    have hflag : ¬ ("ABSENT/V" = "PRESENT/T") := by decide
    rw [if_neg hflag]
    exact ⟨rfl, hchain, rfl, rfl⟩
  · intro hlt
    have hno : ¬ L.length + n ≤ c := by omega
    rw [if_neg hno] at hloop
    unfold evaluate_blocks
    simp only [hchain, hp, hw, hloop, true_or, if_true, true_and]
    have hR : L ++ R.drop L.length = R := List.prefix_iff_eq_append.mp hset.2.1
    simp only [update_chain, Conn.get_chain, amap_at_set_self, List.reverse_reverse]
    have hchain2 : amap_at [] conn.parent_chains conn.message_context.chain_trip = L := hchain
    rw [hchain2, hR]

theorem sync_round_catch_up (env : NodeExternals) (p k c : Nat) (L R : List block)
    (s : sync_session) (hset : catch_up_setting env p L R) (hk : 1 ≤ k)
    (hst : catch_up_state p k c L R s) (hLc : L.length ≤ c) (hcR : c ≤ R.length) :
    ∃ r, sync_round env s = some r ∧
      (c < L.length + k → r.1.flag = "PRESENT/T" ∧ r.2.requester.get_chain = R) ∧
      (L.length + k ≤ c → r.1.flag = "ABSENT/V" ∧ catch_up_state p k (c - k) L R r.2) := by
  obtain ⟨h1, h2, h3, h4, h5, h6⟩ := hst
  have hLpos : 0 < L.length := List.length_pos.mpr hset.1
  have hsend : send_blocks s.responder
      = some ({ flag := "BLOCKS", blocks := blocks_down R c (min k c) },
          { s.responder with
            message_context :=
              { s.responder.message_context with lastbi := if c > k then c - k else 0 } }) := by
    unfold send_blocks
    rw [h1, h2, h3, send_blocks_loop_eq R c hcR hset.2.2.1 k 0 (by omega)]
    simp
  have heval := evaluate_blocks_catch_up env p L R hset s.requester (min k c) c h4 h5 h6 hLc hcR
    (by omega) (by omega)
  have hround : sync_round env s
      = some ((evaluate_blocks env s.requester (blocks_down R c (min k c))).1,
          { responder :=
              { s.responder with
                message_context :=
                  { s.responder.message_context with lastbi := if c > k then c - k else 0 } }
            requester := (evaluate_blocks env s.requester (blocks_down R c (min k c))).2 }) := by
    simp only [sync_round, hsend]
  refine ⟨_, hround, ?_, ?_⟩
  · intro hlt
    exact heval.2 (by omega)
  · intro hle
    obtain ⟨e1, e2, e3, e4⟩ := heval.1 (by omega)
    have hmin : min k c = k := by omega
    refine ⟨e1, ?_, ?_, ?_, e2, e3, e4.trans (by rw [hmin])⟩
    · exact h1
    · simp only []
      rw [if_pos (by omega)]
    · exact h3

theorem sync_run_catch_up (env : NodeExternals) (p k : Nat) (L R : List block)
    (hset : catch_up_setting env p L R) (hk : 1 ≤ k) (fuel c : Nat) (s : sync_session)
    (hst : catch_up_state p k c L R s) (hLc : L.length ≤ c) (hcR : c ≤ R.length)
    (hfuel : c ≤ fuel) :
    ∃ n final, sync_run env fuel s
        = some (List.replicate n "ABSENT/V" ++ ["PRESENT/T"], final) ∧
      final.requester.get_chain = R := by
  have hLpos : 0 < L.length := List.length_pos.mpr hset.1
  induction fuel generalizing c s with
  | zero => omega
  | succ fuel ih =>
    obtain ⟨r, hr, hdone, hmore⟩ := sync_round_catch_up env p k c L R s hset hk hst hLc hcR
    rw [sync_run]
    simp only [hr]
    by_cases hlt : c < L.length + k
    · obtain ⟨hflag, hchain⟩ := hdone hlt
      have hne : ¬ (r.1.flag = "ABSENT/V") := by rw [hflag]; decide
      rw [if_neg hne, hflag]
      exact ⟨0, r.2, rfl, hchain⟩
    · obtain ⟨hflag, hst'⟩ := hmore (by omega)
      obtain ⟨n, final, hrun, hchain⟩ := ih (c - k) r.2 hst' (by omega) (by omega) (by omega)
      rw [if_pos hflag, hrun, hflag]
      exact ⟨n + 1, final, rfl, hchain⟩

/-- The responder holds the chain `R` of the channel, the requester a
non-empty prefix `L` of it and an empty buffer; every block of `R` passes the
acceptance check on the requester's side and is linked to the next. Then for
every batch size `k >= 1` the exchanges that start from the responder's
context as lines 71-73 of `begin_sending_blocks` set it, run for `length R`
exchanges at most, end: every reply but the last has the flag `ABSENT/V`, the
last has `PRESENT/T`, and the requester's chain is `R`. -/
theorem sync_run_from_cursor (env : NodeExternals) (responder requester : Conn)
    (chain : String) (k : Nat) (L R : List block)
    (hR : amap_at [] responder.parent_chains chain = R)
    (hL : requester.get_chain = L)
    (hw : requester.message_context.wchain = [])
    (hne : L ≠ []) (hpre : L <+: R) (hlen : R.length < 2 ^ 64)
    (hvalid : ∀ i, i < R.length →
      env.verify_block L (i, R.getD i []) requester.message_context.pow_min = true)
    (hlink : ∀ i, i + 1 < R.length →
      block_field (R.getD i []) 2 = block_field (R.getD (i + 1) []) 1)
    (hk : 1 ≤ k) :
    ∃ n final,
      sync_run env R.length
          { responder := begin_cursor responder chain k, requester := requester }
        = some (List.replicate n "ABSENT/V" ++ ["PRESENT/T"], final) ∧
      final.requester.get_chain = R := by
  have hset : catch_up_setting env requester.message_context.pow_min L R :=
    ⟨hne, hpre, hlen, hvalid, hlink⟩
  have hLR : L.length ≤ R.length := hpre.length_le
  have hst : catch_up_state requester.message_context.pow_min k R.length L R
      { responder := begin_cursor responder chain k, requester := requester } := by
    refine ⟨hR, ?_, rfl, hL, rfl, ?_⟩
    · simp only [begin_cursor, hR]
    · simp [hw]
  exact sync_run_catch_up env requester.message_context.pow_min k
    L R hset hk R.length R.length _ hst hLR (le_refl _) (le_refl _)

/-- Line 74 never returns: whatever the chain and the context, the handler
`begin_sending_blocks` produces no message. -/
theorem begin_sending_blocks_none (env : NodeExternals) (conn : Conn) (chain : String)
    (k : Nat) : begin_sending_blocks env conn chain k = none := by
  unfold begin_sending_blocks begin_threshold
  cases (begin_cursor conn chain k).get_chain[0]? <;> rfl

/-- C14, the code at the failing input: the responder holds `[g, b1, b2]`, the
requester `[g]`, the batch size is 2. Line 74 reads the member `p` of the json
string made of the sixth field of `g`, which the library refuses, so
`begin_sending_blocks` produces no `BLOCKS` message and the session has no
reply, whatever the number of exchanges allowed. From the context as lines
71-73 set it, two exchanges would give `ABSENT/V`, `PRESENT/T` and the chain
`[g, b1, b2]`. -/
theorem sync_begin_gives_no_reply :
    (Json.str (block_field blk_g 5)).at_key "p" = none ∧
    begin_sending_blocks accept_env (conn_with [blk_g, blk_b1, blk_b2] []) "ch" 2 = none ∧
    (∀ fuel, sync accept_env fuel (conn_with [blk_g, blk_b1, blk_b2] []) (conn_with [blk_g] [])
      "ch" 2 = none) ∧
    (sync_run accept_env 3
        { responder := begin_cursor (conn_with [blk_g, blk_b1, blk_b2] []) "ch" 2
          requester := conn_with [blk_g] [] }).map
        (fun r => (r.1, r.2.requester.get_chain))
      = some (["ABSENT/V", "PRESENT/T"], [blk_g, blk_b1, blk_b2]) := by
  refine ⟨rfl, rfl, ?_, rfl⟩
  intro fuel
  rfl

/-! ## Role creation and update, invitations, capability codes -/

theorem amap_find_set_self {V : Type} (m : List (String × V)) (k : String) (v : V) :
    amap_find (amap_set m k v) k = some v := by
  simp [amap_find_set]

theorem apply_crole_features (srv : Server) (ctx : branch_context)
    (extra : List (String × Json)) (author_member : member) (d : claf_payload)
    (hacc : (apply_crole srv ctx extra author_member d).accepted = true) :
    ∃ rl v, amap_find (apply_crole srv ctx extra author_member d).ctx.roles d.rn = some (rl, v) ∧
      ∀ i, rl.features i = decode_features d.pc i := by
  unfold apply_crole at hacc ⊢
  simp only [] at hacc ⊢
  split_ifs at hacc ⊢ <;> first
    | (exfalso; simp at hacc; done)
    | exact ⟨_, _, amap_find_set_self _ _ _, fun i => rfl⟩

/-- After an accepted message `r`/`crole`, the role stored under the declared
name has, for each index, the bit that `decode_features` returned. -/
theorem apply_data_crole_features (env : Externals) (srv : Server) (ctx : branch_context)
    (extra : List (String × Json)) (claf_data : claf) (content signature content_hash : String)
    (hst : claf_data.st = "r") (ht : claf_data.t = "crole")
    (hacc : (srv.apply_data env ctx extra claf_data content signature content_hash).accepted
      = true) :
    ∃ rl v,
      amap_find (srv.apply_data env ctx extra claf_data content signature content_hash).ctx.roles
        claf_data.d.rn = some (rl, v) ∧
      ∀ i, rl.features i = decode_features claf_data.d.pc i := by
  unfold Server.apply_data at hacc ⊢
  simp only [hst, ht] at hacc ⊢
  split_ifs at hacc ⊢ <;> first
    | (exfalso; simp at hacc; done)
    | exact apply_crole_features _ _ _ _ _ hacc
    | simp_all

/-- C21, the code at the failing input: `u1` creates the role `new` with the
capability code 127, whose bits 0 to 6 are all set. The message is accepted,
`decode_features` returns false for every index, and the role is stored
without any of the six capabilities. -/
theorem apply_data_crole_drops_declared_bits :
    crole_weaker.d.pc = 127 ∧
    (∀ i : Fin 7, Int.testBit 127 i.val = true) ∧
    (sample_srv.apply_data sample_env sample_ctx [] crole_weaker "body" "sig" "h0").accepted
      = true ∧
    (∀ i : Fin 6, decode_features crole_weaker.d.pc i = false) ∧
    amap_find
        (sample_srv.apply_data sample_env sample_ctx [] crole_weaker "body" "sig" "h0").ctx.roles
        "new" = some ({ features := fun _ => false, primacy := 7 }, 0) := by
  refine ⟨rfl, by decide, rfl, fun i => decode_features_clear _ i, ?_⟩
  obtain ⟨rl, v, hfind, hbits⟩ := apply_data_crole_features sample_env sample_srv sample_ctx []
    crole_weaker "body" "sig" "h0" rfl rfl rfl
  change amap_find _ "new" = _ at hfind
  have hprim : (amap_find
      (sample_srv.apply_data sample_env sample_ctx [] crole_weaker "body" "sig" "h0").ctx.roles
      "new").map (fun e => (e.1.primacy, e.2)) = some (7, 0) := rfl
  rw [hfind] at hprim ⊢
  simp only [Option.map_some', Option.some.injEq, Prod.mk.injEq] at hprim
  obtain ⟨features, primacy⟩ := rl
  simp only at hprim hbits
  obtain ⟨h1, h2⟩ := hprim
  subst h1 h2
  have hf : features = fun _ => false := funext (fun i => (hbits i).trans (decode_features_clear _ i))
  rw [hf]

/-- C23, the code at the failing input: the vector with only capability 1 set
is encoded as 114, like every vector, and decoded as the vector without any
capability. -/
theorem decode_encode_loses_capability :
    encode_features (fun i => decide (i = 1)) = 114 ∧
    encode_features (fun _ => false) = 114 ∧
    decode_features (encode_features (fun i => decide (i = 1))) 1 = false ∧
    decode_features (encode_features (fun i => decide (i = 1))) ≠ (fun i => decide (i = 1)) := by
  refine ⟨rfl, rfl, decode_features_clear _ _, ?_⟩
  intro h
  have h1 := congrFun h 1
  rw [decode_features_clear] at h1
  exact absurd h1 (by decide)

/-- C24, the code at the failing input: the member `s1e1` holds `quiet` with
rank 1; the accepted invitation of its own key set stores a new member under
`s1e1`, and the rank is gone. -/
theorem apply_data_invite_replaces_member :
    (sample_srv.apply_data sample_env reinvite_ctx [] reinvite_message "body" "sig" "h0").accepted
      = true ∧
    member_rank reinvite_ctx.members "s1e1" "quiet" = some 1 ∧
    member_rank
      (sample_srv.apply_data sample_env reinvite_ctx [] reinvite_message "body" "sig"
        "h0").ctx.members "s1e1" "quiet" = none := by
  refine ⟨?_, ?_, ?_⟩ <;> rfl

/-- C25, the code at the failing input: `u1` has minimum primacy 5 and the
role `creator` has primacy 0; the message declaring primacy 6 for `creator` is
accepted and the role is stored with primacy 6 and version 2. -/
theorem apply_data_crole_rewrites_creator :
    (creator_ctx.min_primacy (amap_at member.zero creator_ctx.members "u1")).1 = 5 ∧
    amap_find creator_ctx.roles "creator"
      = some ({ features := fun _ => false, primacy := 0 }, 1) ∧
    (sample_srv.apply_data sample_env creator_ctx [] crole_demote_creator "body" "sig"
      "h0").accepted = true ∧
    (amap_at role_pair_zero
      (sample_srv.apply_data sample_env creator_ctx [] crole_demote_creator "body" "sig"
        "h0").ctx.roles "creator").1.primacy = 6 ∧
    (amap_at role_pair_zero
      (sample_srv.apply_data sample_env creator_ctx [] crole_demote_creator "body" "sig"
        "h0").ctx.roles "creator").2 = 2 := by
  refine ⟨?_, ?_, ?_, ?_, ?_⟩ <;> rfl

/-! ## Branch links -/

/-- C22, the code at the failing input: the block `g` has the two children
`c1` and `c2` in the channel and there are no constraint heads. After
`load_branch_forward("g")` the record stored under `g` has an empty first hash,
its child set holds the empty string and neither `c1` nor `c2`, and the parent
sets of the records under `c1` and `c2` hold the empty string and not `g`. -/
theorem load_branch_forward_links_empty_hash :
    (load_branch_forward sample_env sample_bx 2 fork_server "g").map
        (fun s =>
          ((amap_at branch.zero s.branches "g").first_hash,
            (amap_at branch.zero s.branches "g").c_branch_fbs,
            (amap_at branch.zero s.branches "c1").p_branch_fbs,
            (amap_at branch.zero s.branches "c2").p_branch_fbs,
            (amap_at branch.zero s.branches "g").messages.map (fun m => m.hash)))
      = some ("", [""], [""], [""], ["g"]) := by
  rfl

/-- The condition of line 159 holds for every state and every hash, so the
assignment of line 165 is never reached. -/
theorem detach_condition_always (branches : List (String × branch)) (fb_hash : String) :
    (amap_find branches fb_hash).isSome = true ∨
      (amap_at branch.zero (amap_index branch.zero branches fb_hash) fb_hash).first_hash = "" := by
  cases h : amap_find branches fb_hash with
  | some b => exact Or.inl rfl
  | none =>
    right
    simp [amap_at, amap_index, h, amap_find_set, branch.zero]

end Ledger
